import Mathlib

/-!
neurobit: packed 4-bit / 2-bit affine quantisation

A shallow embedding of `neurobit.h` (the four conversion routines and the two
saturation helpers) together with theorems about it.

Modelling conventions.

* `float` values are exact rationals (`ℚ`): `*`, `/` and the conversion from
  `int32_t` are the exact operations, `roundf` is rounding to the nearest
  integer with ties away from zero.  The theorems about rounded quotients are
  therefore statements in exact arithmetic; `code_u4_f32` and `code_u2_f32`
  give the binary32 reading of the encoders' expression for comparison.
* `int32_t` values are integers in `[-2^31, 2^31)`; the results of `+`, `-`
  and of the cast `(int32_t)` are reduced into that range modulo `2^32`
  (`wrap32`).
* `uint8_t` values are naturals below `256`; a store into a `uint8_t` reduces
  modulo `256`.
* `size_t` indices are naturals.  The loop counters never exceed `len`, so no
  index computation of the source can wrap.
* A pointer is `none` (the null pointer) or `some buf`, where the list `buf`
  is the allocated buffer it points to.  Reads and writes are checked against
  the length of the buffer and fail with `Fault.bounds` outside it.
* `assert` is active: a failed assertion ends the call with `Fault.assertion`.
* Loops carry a fuel argument; the entry points supply `len`, which is always
  sufficient (this is proved, not assumed).
-/

namespace Neurobit

/-- Ways in which a call can fail to produce a result. -/
inductive Fault
  | assertion
  | bounds
  | fuel
  deriving DecidableEq, Repr

/-- Reduction of an integer into the `int32_t` range, modulo `2^32`. -/
def wrap32 (z : ℤ) : ℤ := (z + 2147483648) % 4294967296 - 2147483648

/-- The values of type `int32_t`. -/
def isInt32 (z : ℤ) : Prop := -2147483648 ≤ z ∧ z < 2147483648

instance (z : ℤ) : Decidable (isInt32 z) := by unfold isInt32; infer_instance

/-- Conversion of an `int` value to `uint8_t`. -/
def u8 (z : ℤ) : ℕ := (z % 256).toNat

/-- C `roundf`: nearest integer, ties away from zero. -/
def roundf (x : ℚ) : ℤ := if 0 ≤ x then ⌊x + 1 / 2⌋ else -⌊-x + 1 / 2⌋

/-- `static inline uint8_t sat_u4(int32_t x) { return x < 0 ? 0 : x > 15 ? 15 : x; }` -/
def sat_u4 (x : ℤ) : ℕ := u8 (if x < 0 then 0 else if x > 15 then 15 else x)

/-- `static inline uint8_t sat_u2(int32_t x) { return x < 0 ? 0 : x > 3 ? 3 : x; }` -/
def sat_u2 (x : ℤ) : ℕ := u8 (if x < 0 then 0 else if x > 3 then 3 else x)

/-- The expression `sat_u4(zero_point + (int32_t)roundf(x*inv_scale))`, the product taken
exactly. -/
def code_u4 (zero_point : ℤ) (inv_scale x : ℚ) : ℕ :=
  sat_u4 (wrap32 (zero_point + wrap32 (roundf (x * inv_scale))))

/-- The expression `sat_u2(zero_point + (int32_t)roundf(x*inv_scale))`, the product taken
exactly. -/
def code_u2 (zero_point : ℤ) (inv_scale x : ℚ) : ℕ :=
  sat_u2 (wrap32 (zero_point + wrap32 (roundf (x * inv_scale))))

/-- The expression `(float)((int32_t)c - zero_point)*scale`. -/
def dequant_value (c : ℕ) (scale : ℚ) (zero_point : ℤ) : ℚ :=
  ((wrap32 ((c : ℤ) - zero_point) : ℤ) : ℚ) * scale

/-- Checked read `buf[i]`. -/
def load {α : Type} (buf : List α) (i : ℕ) : Except Fault α :=
  match buf[i]? with
  | some v => .ok v
  | none => .error .bounds

/-- Checked write `buf[i] = v`. -/
def store {α : Type} (buf : List α) (i : ℕ) (v : α) : Except Fault (List α) :=
  if i < buf.length then .ok (buf.set i v) else .error .bounds

/-- The loop `for (i=0; i+1 < len; i += 2)` of `neurobit_quant_float_to_uint4`,
started at counter `i`; returns the final counter and output buffer. -/
def quant_uint4_loop (inp : List ℚ) (len : ℕ) (inv_scale : ℚ) (zero_point : ℤ) :
    ℕ → ℕ → List ℕ → Except Fault (ℕ × List ℕ)
  | 0, i, out => if i + 1 < len then .error .fuel else .ok (i, out)
  | fuel + 1, i, out =>
    if i + 1 < len then do
      let x0 ← load inp i
      let x1 ← load inp (i + 1)
      let a := code_u4 zero_point inv_scale x0
      let b := code_u4 zero_point inv_scale x1
      let out ← store out (i >>> 1) ((a ||| (b <<< 4)) % 256)
      quant_uint4_loop inp len inv_scale zero_point fuel (i + 2) out
    else .ok (i, out)

/-- Model of `neurobit_quant_float_to_uint4`; the result is the output buffer after the call. -/
def neurobit_quant_float_to_uint4 (inp : Option (List ℚ)) (out : Option (List ℕ))
    (len : ℕ) (scale : ℚ) (zero_point : ℤ) : Except Fault (List ℕ) :=
  match inp, out with
  | some inp, some out =>
    if 0 < scale then do
      let inv_scale := 1 / scale
      let (i, out) ← quant_uint4_loop inp len inv_scale zero_point len 0 out
      if len &&& 1 ≠ 0 then do
        let x ← load inp (len - 1)
        store out (i >>> 1) (code_u4 zero_point inv_scale x)
      else .ok out
    else .error .assertion
  | _, _ => .error .assertion

/-- The loop `for (i=0, j=0; i+1 < len; i += 2, ++j)` of `neurobit_dequant_uint4_to_float`. -/
def dequant_uint4_loop (inp : List ℕ) (len : ℕ) (scale : ℚ) (zero_point : ℤ) :
    ℕ → ℕ → ℕ → List ℚ → Except Fault (ℕ × ℕ × List ℚ)
  | 0, i, j, out => if i + 1 < len then .error .fuel else .ok (i, j, out)
  | fuel + 1, i, j, out =>
    if i + 1 < len then do
      let p ← load inp j
      let a := (p &&& 15) % 256
      let b := (p >>> 4) % 256
      let out ← store out i (dequant_value a scale zero_point)
      let out ← store out (i + 1) (dequant_value b scale zero_point)
      dequant_uint4_loop inp len scale zero_point fuel (i + 2) (j + 1) out
    else .ok (i, j, out)

/-- Model of `neurobit_dequant_uint4_to_float`; the result is the output buffer after the call. -/
def neurobit_dequant_uint4_to_float (inp : Option (List ℕ)) (out : Option (List ℚ))
    (len : ℕ) (scale : ℚ) (zero_point : ℤ) : Except Fault (List ℚ) :=
  match inp, out with
  | some inp, some out =>
    if 0 < scale then do
      let (i, _, out) ← dequant_uint4_loop inp len scale zero_point len 0 0 out
      if len &&& 1 ≠ 0 then do
        let p ← load inp (i >>> 1)
        store out (len - 1) (dequant_value (p &&& 15) scale zero_point)
      else .ok out
    else .error .assertion
  | _, _ => .error .assertion

/-- The loop `for (i=0; i+3 < len; i += 4)` of `neurobit_quant_float_to_uint2`. -/
def quant_uint2_loop (inp : List ℚ) (len : ℕ) (inv_scale : ℚ) (zero_point : ℤ) :
    ℕ → ℕ → List ℕ → Except Fault (ℕ × List ℕ)
  | 0, i, out => if i + 3 < len then .error .fuel else .ok (i, out)
  | fuel + 1, i, out =>
    if i + 3 < len then do
      let x0 ← load inp i
      let x1 ← load inp (i + 1)
      let x2 ← load inp (i + 2)
      let x3 ← load inp (i + 3)
      let a := code_u2 zero_point inv_scale x0
      let b := code_u2 zero_point inv_scale x1
      let c := code_u2 zero_point inv_scale x2
      let d := code_u2 zero_point inv_scale x3
      let out ← store out (i >>> 2) ((a ||| (b <<< 2) ||| (c <<< 4) ||| (d <<< 6)) % 256)
      quant_uint2_loop inp len inv_scale zero_point fuel (i + 4) out
    else .ok (i, out)

/-- The fall-through `switch (len & 3)` of `neurobit_quant_float_to_uint2`:
`case 3` runs all three statements, `case 2` the last two, `case 1` the last. -/
def quant_uint2_tail (inp : List ℚ) (len : ℕ) (inv_scale : ℚ) (zero_point : ℤ) (i : ℕ) :
    Except Fault ℕ := do
  let p := 0
  let p ← if len &&& 3 = 3 then do
      let x ← load inp (i + 2)
      pure ((p ||| (code_u2 zero_point inv_scale x <<< 4)) % 256)
    else pure p
  let p ← if len &&& 3 = 3 ∨ len &&& 3 = 2 then do
      let x ← load inp (i + 1)
      pure ((p ||| (code_u2 zero_point inv_scale x <<< 2)) % 256)
    else pure p
  let p ← if len &&& 3 = 3 ∨ len &&& 3 = 2 ∨ len &&& 3 = 1 then do
      let x ← load inp i
      pure ((p ||| code_u2 zero_point inv_scale x) % 256)
    else pure p
  pure p

/-- Model of `neurobit_quant_float_to_uint2`; the result is the output buffer after the call. -/
def neurobit_quant_float_to_uint2 (inp : Option (List ℚ)) (out : Option (List ℕ))
    (len : ℕ) (scale : ℚ) (zero_point : ℤ) : Except Fault (List ℕ) :=
  match inp, out with
  | some inp, some out =>
    if 0 < scale then do
      let inv_scale := 1 / scale
      let (i, out) ← quant_uint2_loop inp len inv_scale zero_point len 0 out
      if len &&& 3 ≠ 0 then do
        let p ← quant_uint2_tail inp len inv_scale zero_point i
        store out (i >>> 2) p
      else .ok out
    else .error .assertion
  | _, _ => .error .assertion

/-- The loop `for (i=0, j=0; i+3 < len; i += 4, ++j)` of `neurobit_dequant_uint2_to_float`. -/
def dequant_uint2_loop (inp : List ℕ) (len : ℕ) (scale : ℚ) (zero_point : ℤ) :
    ℕ → ℕ → ℕ → List ℚ → Except Fault (ℕ × ℕ × List ℚ)
  | 0, i, j, out => if i + 3 < len then .error .fuel else .ok (i, j, out)
  | fuel + 1, i, j, out =>
    if i + 3 < len then do
      let p ← load inp j
      let out ← store out i (dequant_value (p &&& 3) scale zero_point)
      let out ← store out (i + 1) (dequant_value ((p >>> 2) &&& 3) scale zero_point)
      let out ← store out (i + 2) (dequant_value ((p >>> 4) &&& 3) scale zero_point)
      let out ← store out (i + 3) (dequant_value ((p >>> 6) &&& 3) scale zero_point)
      dequant_uint2_loop inp len scale zero_point fuel (i + 4) (j + 1) out
    else .ok (i, j, out)

/-- The tail block `if (len & 3) { ... }` of `neurobit_dequant_uint2_to_float`,
entered with loop counter `i`: three guarded stores, in source order. -/
def dequant_uint2_tail (inp : List ℕ) (len : ℕ) (scale : ℚ) (zero_point : ℤ) (i : ℕ)
    (out : List ℚ) : Except Fault (List ℚ) := do
  let p ← load inp (i >>> 2)
  let out ← if len &&& 1 ≠ 0 then
      store out i (dequant_value (p &&& 3) scale zero_point)
    else pure out
  let out ← if len &&& 2 ≠ 0 then
      store out (i + 1) (dequant_value ((p >>> 2) &&& 3) scale zero_point)
    else pure out
  let out ← if len &&& 3 ≠ 0 then
      store out (i + (if len &&& 3 = 3 then 2 else 0))
        (dequant_value ((p >>> 4) &&& 3) scale zero_point)
    else pure out
  pure out

/-- Model of `neurobit_dequant_uint2_to_float`; the result is the output buffer after the call. -/
def neurobit_dequant_uint2_to_float (inp : Option (List ℕ)) (out : Option (List ℚ))
    (len : ℕ) (scale : ℚ) (zero_point : ℤ) : Except Fault (List ℚ) :=
  match inp, out with
  | some inp, some out =>
    if 0 < scale then do
      let (i, _, out) ← dequant_uint2_loop inp len scale zero_point len 0 0 out
      if len &&& 3 ≠ 0 then
        dequant_uint2_tail inp len scale zero_point i out
      else .ok out
    else .error .assertion
  | _, _ => .error .assertion

/-! ## Specification-side descriptions of the buffers -/

/-- Byte `j` of a full 4-bit group: samples `2j` (low nibble) and `2j+1` (high nibble). -/
def pack_u4 (inp : List ℚ) (inv_scale : ℚ) (zero_point : ℤ) (j : ℕ) : ℕ :=
  (code_u4 zero_point inv_scale (inp.getD (2 * j) 0) |||
    (code_u4 zero_point inv_scale (inp.getD (2 * j + 1) 0) <<< 4)) % 256

/-- Byte `j` of the packed 4-bit image of the first `len` samples of `inp`:
a full group, or the single code of an odd tail. -/
def packed_u4 (inp : List ℚ) (len : ℕ) (inv_scale : ℚ) (zero_point : ℤ) (j : ℕ) : ℕ :=
  if 2 * j + 1 < len then pack_u4 inp inv_scale zero_point j
  else code_u4 zero_point inv_scale (inp.getD (2 * j) 0)

/-- The code `neurobit_dequant_uint4_to_float` extracts for output index `k`:
`p & 15` for even `k`, `p >> 4` (stored in a `uint8_t`) for odd `k`, with `p = in[k/2]`. -/
def read_u4 (inp : List ℕ) (k : ℕ) : ℕ :=
  if k % 2 = 0 then inp.getD (k / 2) 0 &&& 15 else (inp.getD (k / 2) 0 >>> 4) % 256

/-- Byte `j` of a full 2-bit group: samples `4j .. 4j+3` at bit offsets 0, 2, 4, 6. -/
def pack_u2 (inp : List ℚ) (inv_scale : ℚ) (zero_point : ℤ) (j : ℕ) : ℕ :=
  (code_u2 zero_point inv_scale (inp.getD (4 * j) 0) |||
    (code_u2 zero_point inv_scale (inp.getD (4 * j + 1) 0) <<< 2) |||
    (code_u2 zero_point inv_scale (inp.getD (4 * j + 2) 0) <<< 4) |||
    (code_u2 zero_point inv_scale (inp.getD (4 * j + 3) 0) <<< 6)) % 256

/-- The value the fall-through switch leaves in `p` for remainder `r` and the codes
`c0 c1 c2` of the tail samples (`c1`, `c2` are ignored where the switch does not read them). -/
def tail_byte_u2 (r c0 c1 c2 : ℕ) : ℕ :=
  let p := 0
  let p := if r = 3 then (p ||| (c2 <<< 4)) % 256 else p
  let p := if r = 3 ∨ r = 2 then (p ||| (c1 <<< 2)) % 256 else p
  let p := if r = 3 ∨ r = 2 ∨ r = 1 then (p ||| c0) % 256 else p
  p

/-- Byte `j` of the packed 2-bit image of the first `len` samples of `inp`. -/
def packed_u2 (inp : List ℚ) (len : ℕ) (inv_scale : ℚ) (zero_point : ℤ) (j : ℕ) : ℕ :=
  if 4 * j + 3 < len then pack_u2 inp inv_scale zero_point j
  else tail_byte_u2 (len % 4)
    (code_u2 zero_point inv_scale (inp.getD (4 * j) 0))
    (code_u2 zero_point inv_scale (inp.getD (4 * j + 1) 0))
    (code_u2 zero_point inv_scale (inp.getD (4 * j + 2) 0))

/-! ## Data of `test_uint4_quant_roundtrip` (test.c) -/

/-- The array `input` of the test, with the decimal literals of the source read as rationals. -/
def test_input : List ℚ :=
  [0.851733685, -0.876200974, -0.250579119, 0.802029967, 0.721749306, -0.72338897,
    -0.959288836]

/-- The constant `scale` of the test. -/
def test_scale : ℚ := 0.149460852

/-- The constant `zp` of the test. -/
def test_zp : ℤ := 8

/-- The code `neurobit_dequant_uint2_to_float` extracts for output index `k`, with
`p = in[k/4]`: the field of `p` at bit offset `2 * (k mod 4)`, except at the first tail index
`len - len mod 4` when `len mod 4` is 1 or 2, where the last tail statement stores the field
at bit offset 4. -/
def read_u2 (inp : List ℕ) (len k : ℕ) : ℕ :=
  if (len % 4 = 1 ∨ len % 4 = 2) ∧ k = len - len % 4 then (inp.getD (k / 4) 0 >>> 4) &&& 3
  else (inp.getD (k / 4) 0 >>> (2 * (k % 4))) &&& 3

/-! ## Binary32 reading of the encoders' expression -/

/-- Rounding to the nearest integer, ties to the even one. -/
def round_half_even (q : ℚ) : ℤ :=
  if q - ⌊q⌋ < 1 / 2 then ⌊q⌋
  else if 1 / 2 < q - ⌊q⌋ then ⌊q⌋ + 1
  else if ⌊q⌋ % 2 = 0 then ⌊q⌋ else ⌊q⌋ + 1

/-- Exponent of the binary32 binade of `x`: the `e` with `2^e ≤ |x| < 2^(e+1)`, and `-126`
in the subnormal range. -/
def f32_exponent (x : ℚ) : ℤ :=
  let d : ℤ := (Nat.log2 x.num.natAbs : ℤ) - (Nat.log2 x.den : ℤ)
  max (if (2 : ℚ) ^ d ≤ (if 0 ≤ x then x else -x) then d else d - 1) (-126)

/-- Rounding of a rational to the nearest binary32 value (24-bit significand, ties to even).
Overflow to infinity is not represented: the value is the binary32 result for `|x| < 2^128`. -/
def f32_round (x : ℚ) : ℚ :=
  (round_half_even (x / (2 : ℚ) ^ (f32_exponent x - 23)) : ℚ) * (2 : ℚ) ^ (f32_exponent x - 23)

/-- The expression `sat_u4(zero_point + (int32_t)roundf(x*inv_scale))` with
`inv_scale = 1.0f / scale` and the product both evaluated in binary32. -/
def code_u4_f32 (zero_point : ℤ) (scale x : ℚ) : ℕ :=
  sat_u4 (wrap32 (zero_point + wrap32 (roundf (f32_round (x * f32_round (1 / scale))))))

/-- The expression `sat_u2(zero_point + (int32_t)roundf(x*inv_scale))` with
`inv_scale = 1.0f / scale` and the product both evaluated in binary32. -/
def code_u2_f32 (zero_point : ℤ) (scale x : ℚ) : ℕ :=
  sat_u2 (wrap32 (zero_point + wrap32 (roundf (f32_round (x * f32_round (1 / scale))))))

/-! ## Basic facts about the primitive operations -/

theorem wrap32_of_isInt32 {z : ℤ} (h : isInt32 z) : wrap32 z = z := by
  unfold isInt32 at h
  unfold wrap32
  omega

theorem wrap32_add_wrap32 (a b : ℤ) : wrap32 (a + wrap32 b) = wrap32 (a + b) := by
  unfold wrap32
  omega

theorem isInt32_wrap32 (z : ℤ) : isInt32 (wrap32 z) := by
  unfold isInt32 wrap32
  omega

theorem sat_u4_eq (x : ℤ) : ((sat_u4 x : ℕ) : ℤ) = max 0 (min 15 x) := by
  unfold sat_u4 u8
  split_ifs <;> omega

theorem sat_u2_eq (x : ℤ) : ((sat_u2 x : ℕ) : ℤ) = max 0 (min 3 x) := by
  unfold sat_u2 u8
  split_ifs <;> omega

theorem sat_u4_lt (x : ℤ) : sat_u4 x < 16 := by
  have := sat_u4_eq x
  omega

theorem sat_u2_lt (x : ℤ) : sat_u2 x < 4 := by
  have := sat_u2_eq x
  omega

theorem code_u4_lt (zp : ℤ) (inv x : ℚ) : code_u4 zp inv x < 16 := sat_u4_lt _

theorem code_u2_lt (zp : ℤ) (inv x : ℚ) : code_u2 zp inv x < 4 := sat_u2_lt _

theorem code_u4_eq (zp : ℤ) (scale x : ℚ) (h : isInt32 (zp + roundf (x / scale))) :
    ((code_u4 zp (1 / scale) x : ℕ) : ℤ) = max 0 (min 15 (zp + roundf (x / scale))) := by
  unfold code_u4
  rw [wrap32_add_wrap32, mul_one_div, wrap32_of_isInt32 h, sat_u4_eq]

theorem code_u2_eq (zp : ℤ) (scale x : ℚ) (h : isInt32 (zp + roundf (x / scale))) :
    ((code_u2 zp (1 / scale) x : ℕ) : ℤ) = max 0 (min 3 (zp + roundf (x / scale))) := by
  unfold code_u2
  rw [wrap32_add_wrap32, mul_one_div, wrap32_of_isInt32 h, sat_u2_eq]

theorem load_ok {α : Type} (buf : List α) (i : ℕ) (d : α) (h : i < buf.length) :
    load buf i = .ok (buf.getD i d) := by
  simp [load, List.getD_eq_getElem?_getD, List.getElem?_eq_getElem h]

theorem store_ok {α : Type} (buf : List α) (i : ℕ) (v : α) (h : i < buf.length) :
    store buf i v = .ok (buf.set i v) := by
  simp [store, h]

theorem ok_bind {α β : Type} (a : α) (f : α → Except Fault β) :
    (Except.ok a >>= f) = f a := rfl

theorem quant_uint4_loop_spec (inp : List ℚ) (len : ℕ) (inv : ℚ) (zp : ℤ)
    (hin : len ≤ inp.length) :
    ∀ (fuel i : ℕ) (out : List ℕ), i % 2 = 0 → i ≤ len → len ≤ i + 2 * fuel →
      (len + 1) / 2 ≤ out.length →
      ∃ out', quant_uint4_loop inp len inv zp fuel i out = .ok (len - len % 2, out') ∧
        ∀ j, out'[j]? =
          if i / 2 ≤ j ∧ j < len / 2 then some (pack_u4 inp inv zp j) else out[j]? := by
  intro fuel
  induction fuel with
  | zero =>
    intro i out hi hle hf _
    have hc : ¬ (i + 1 < len) := by omega
    refine ⟨out, ?_, ?_⟩
    · have : len - len % 2 = i := by omega
      simp [quant_uint4_loop, hc, this]
    · intro j
      have : ¬ (i / 2 ≤ j ∧ j < len / 2) := by omega
      simp [this]
  | succ fuel ih =>
    intro i out hi hle hf hout
    by_cases hc : i + 1 < len
    · have hs : i >>> 1 < out.length := by
        rw [Nat.shiftRight_eq_div_pow]; omega
      obtain ⟨out', hrun, hget⟩ := ih (i + 2)
        (out.set (i >>> 1) (pack_u4 inp inv zp (i / 2))) (by omega) (by omega) (by omega)
        (by rw [List.length_set]; exact hout)
      refine ⟨out', ?_, ?_⟩
      · have h2 : 2 * (i / 2) = i := by omega
        rw [quant_uint4_loop, if_pos hc, load_ok inp i 0 (by omega),
          load_ok inp (i + 1) 0 (by omega)]
        simp only [ok_bind]
        rw [store_ok _ _ _ hs, ok_bind, ← hrun]
        simp only [pack_u4, h2]
      · intro j
        rw [hget j, List.getElem?_set, Nat.shiftRight_eq_div_pow, pow_one]
        by_cases h1 : (i + 2) / 2 ≤ j ∧ j < len / 2
        · have : i / 2 ≤ j ∧ j < len / 2 := by omega
          rw [if_pos h1, if_pos this]
        · by_cases h2 : i / 2 = j
          · subst h2
            have : i / 2 ≤ i / 2 ∧ i / 2 < len / 2 := by omega
            have hlt : i / 2 < out.length := by omega
            rw [if_neg h1, if_pos rfl, if_pos hlt, if_pos this]
          · have : ¬ (i / 2 ≤ j ∧ j < len / 2) := by omega
            rw [if_neg h1, if_neg h2, if_neg this]
    · refine ⟨out, ?_, ?_⟩
      · have : len - len % 2 = i := by omega
        simp [quant_uint4_loop, hc, this]
      · intro j
        have : ¬ (i / 2 ≤ j ∧ j < len / 2) := by omega
        simp [this]

theorem length_eq_of_isSome_eq {α : Type} (l1 l2 : List α)
    (h : ∀ j : ℕ, (l1[j]?).isSome = (l2[j]?).isSome) : l1.length = l2.length := by
  by_contra hne
  rcases Nat.lt_or_gt_of_ne hne with h1 | h1
  · have h2 := h l1.length
    rw [List.getElem?_eq_none (le_refl _), List.getElem?_eq_getElem h1] at h2
    simp at h2
  · have h2 := h l2.length
    rw [List.getElem?_eq_none (le_refl _), List.getElem?_eq_getElem h1] at h2
    simp at h2

theorem quant_uint4_run (inp : List ℚ) (out : List ℕ) (len : ℕ) (scale : ℚ) (zp : ℤ)
    (hs : 0 < scale) (hin : len ≤ inp.length) (hout : (len + 1) / 2 ≤ out.length) :
    ∃ out', neurobit_quant_float_to_uint4 (some inp) (some out) len scale zp = .ok out' ∧
      ∀ j, out'[j]? =
        if j < (len + 1) / 2 then some (packed_u4 inp len (1 / scale) zp j) else out[j]? := by
  obtain ⟨o1, hrun, hget⟩ := quant_uint4_loop_spec inp len (1 / scale) zp hin len 0 out
    (by omega) (by omega) (by omega) hout
  have hlen1 : o1.length = out.length := by
    apply length_eq_of_isSome_eq
    intro j
    rw [hget j]
    by_cases h2 : 0 / 2 ≤ j ∧ j < len / 2
    · have h3 : j < out.length := by omega
      rw [if_pos h2, List.getElem?_eq_getElem h3]
      rfl
    · rw [if_neg h2]
  simp only [neurobit_quant_float_to_uint4, if_pos hs, hrun, ok_bind, Nat.and_one_is_mod]
  by_cases hodd : len % 2 = 1
  · have hne : len % 2 ≠ 0 := by omega
    have hst : (len - len % 2) >>> 1 < o1.length := by
      rw [Nat.shiftRight_eq_div_pow]; omega
    rw [if_pos hne, load_ok inp (len - 1) 0 (by omega), ok_bind, store_ok _ _ _ hst]
    refine ⟨_, rfl, ?_⟩
    intro j
    rw [List.getElem?_set, Nat.shiftRight_eq_div_pow, pow_one, hget j]
    by_cases h1 : (len - len % 2) / 2 = j
    · have h2 : j < (len + 1) / 2 := by omega
      have h3 : (len - len % 2) / 2 < o1.length := by omega
      have h4 : ¬ (2 * j + 1 < len) := by omega
      have h5 : len - 1 = 2 * j := by omega
      rw [if_pos h1, if_pos h3, if_pos h2, packed_u4, if_neg h4, h5]
    · rw [if_neg h1]
      by_cases h2 : 0 / 2 ≤ j ∧ j < len / 2
      · have h3 : j < (len + 1) / 2 := by omega
        have h4 : 2 * j + 1 < len := by omega
        rw [if_pos h2, if_pos h3, packed_u4, if_pos h4]
      · have h3 : ¬ (j < (len + 1) / 2) := by omega
        rw [if_neg h2, if_neg h3]
  · have hne : ¬ (len % 2 ≠ 0) := by omega
    rw [if_neg hne]
    refine ⟨_, rfl, ?_⟩
    intro j
    rw [hget j]
    by_cases h2 : 0 / 2 ≤ j ∧ j < len / 2
    · have h3 : j < (len + 1) / 2 := by omega
      have h4 : 2 * j + 1 < len := by omega
      rw [if_pos h2, if_pos h3, packed_u4, if_pos h4]
    · have h3 : ¬ (j < (len + 1) / 2) := by omega
      rw [if_neg h2, if_neg h3]

theorem nibble_lo : ∀ a < 16, ∀ b < 16, (((a ||| (b <<< 4)) % 256) >>> 0) &&& 15 = a := by
  decide

theorem nibble_hi : ∀ a < 16, ∀ b < 16, (((a ||| (b <<< 4)) % 256) >>> 4) &&& 15 = b := by
  decide

theorem nibble_self : ∀ a < 16, (a >>> 0) &&& 15 = a := by decide

theorem packed_u4_nibble (inp : List ℚ) (len : ℕ) (inv : ℚ) (zp : ℤ) (k : ℕ) (hk : k < len) :
    (packed_u4 inp len inv zp (k / 2) >>> (4 * (k % 2))) &&& 15 =
      code_u4 zp inv (inp.getD k 0) := by
  unfold packed_u4
  by_cases h : 2 * (k / 2) + 1 < len
  · rw [if_pos h, pack_u4]
    rcases Nat.mod_two_eq_zero_or_one k with h0 | h1
    · have hk2 : 2 * (k / 2) = k := by omega
      rw [h0, hk2]
      exact nibble_lo _ (code_u4_lt _ _ _) _ (code_u4_lt _ _ _)
    · have hk2 : 2 * (k / 2) + 1 = k := by omega
      rw [h1, hk2]
      exact nibble_hi _ (code_u4_lt _ _ _) _ (code_u4_lt _ _ _)
  · have h0 : k % 2 = 0 := by omega
    have hk2 : 2 * (k / 2) = k := by omega
    rw [if_neg h, h0, hk2]
    exact nibble_self _ (code_u4_lt _ _ _)

theorem and_15_mod (p : ℕ) : (p &&& 15) % 256 = p &&& 15 := by
  have : p &&& 15 ≤ 15 := Nat.and_le_right
  omega

theorem dequant_uint4_loop_spec (inp : List ℕ) (len : ℕ) (scale : ℚ) (zp : ℤ)
    (hin : (len + 1) / 2 ≤ inp.length) :
    ∀ (fuel i j : ℕ) (out : List ℚ), i % 2 = 0 → i ≤ len → j = i / 2 → len ≤ i + 2 * fuel →
      len ≤ out.length →
      ∃ out', dequant_uint4_loop inp len scale zp fuel i j out =
          .ok (len - len % 2, len / 2, out') ∧
        ∀ k, out'[k]? =
          if i ≤ k ∧ k < len - len % 2 then some (dequant_value (read_u4 inp k) scale zp)
          else out[k]? := by
  intro fuel
  induction fuel with
  | zero =>
    intro i j out hi hle hj hf _
    have hc : ¬ (i + 1 < len) := by omega
    refine ⟨out, ?_, ?_⟩
    · have h1 : len - len % 2 = i := by omega
      have h2 : len / 2 = j := by omega
      simp [dequant_uint4_loop, hc, h1, h2]
    · intro k
      have : ¬ (i ≤ k ∧ k < len - len % 2) := by omega
      rw [if_neg this]
  | succ fuel ih =>
    intro i j out hi hle hj hf hout
    by_cases hc : i + 1 < len
    · obtain ⟨out', hrun, hget⟩ := ih (i + 2) (j + 1)
        ((out.set i (dequant_value (read_u4 inp i) scale zp)).set (i + 1)
          (dequant_value (read_u4 inp (i + 1)) scale zp))
        (by omega) (by omega) (by omega) (by omega)
        (by rw [List.length_set, List.length_set]; exact hout)
      refine ⟨out', ?_, ?_⟩
      · have e0 : read_u4 inp i = (inp.getD j 0 &&& 15) % 256 := by
          rw [read_u4, if_pos hi, hj, and_15_mod]
        have e1 : read_u4 inp (i + 1) = (inp.getD j 0 >>> 4) % 256 := by
          have h1 : ¬ ((i + 1) % 2 = 0) := by omega
          have h2 : (i + 1) / 2 = j := by omega
          rw [read_u4, if_neg h1, h2]
        rw [dequant_uint4_loop, if_pos hc, load_ok inp j 0 (by omega), ok_bind]
        dsimp only
        rw [← e0, ← e1, store_ok out i _ (by omega), ok_bind,
          store_ok _ (i + 1) _ (by rw [List.length_set]; omega), ok_bind, ← hrun]
      · intro k
        rw [hget k, List.getElem?_set, List.getElem?_set, List.length_set]
        by_cases h1 : i + 2 ≤ k ∧ k < len - len % 2
        · have : i ≤ k ∧ k < len - len % 2 := by omega
          rw [if_pos h1, if_pos this]
        · rw [if_neg h1]
          by_cases h2 : i + 1 = k
          · subst h2
            have : i ≤ i + 1 ∧ i + 1 < len - len % 2 := by omega
            rw [if_pos rfl, if_pos (by omega), if_pos this]
          · rw [if_neg h2]
            by_cases h3 : i = k
            · subst h3
              have : i ≤ i ∧ i < len - len % 2 := by omega
              rw [if_pos rfl, if_pos (by omega), if_pos this]
            · have : ¬ (i ≤ k ∧ k < len - len % 2) := by omega
              rw [if_neg h3, if_neg this]
    · refine ⟨out, ?_, ?_⟩
      · have h1 : len - len % 2 = i := by omega
        have h2 : len / 2 = j := by omega
        simp [dequant_uint4_loop, hc, h1, h2]
      · intro k
        have : ¬ (i ≤ k ∧ k < len - len % 2) := by omega
        rw [if_neg this]

theorem dequant_uint4_run (inp : List ℕ) (out : List ℚ) (len : ℕ) (scale : ℚ) (zp : ℤ)
    (hs : 0 < scale) (hin : (len + 1) / 2 ≤ inp.length) (hout : len ≤ out.length) :
    ∃ out', neurobit_dequant_uint4_to_float (some inp) (some out) len scale zp = .ok out' ∧
      ∀ k, out'[k]? =
        if k < len then some (dequant_value (read_u4 inp k) scale zp) else out[k]? := by
  obtain ⟨o1, hrun, hget⟩ := dequant_uint4_loop_spec inp len scale zp hin len 0 0 out
    (by omega) (by omega) (by omega) (by omega) hout
  have hlen1 : o1.length = out.length := by
    apply length_eq_of_isSome_eq
    intro k
    rw [hget k]
    by_cases h2 : 0 ≤ k ∧ k < len - len % 2
    · have h3 : k < out.length := by omega
      rw [if_pos h2, List.getElem?_eq_getElem h3]
      rfl
    · rw [if_neg h2]
  simp only [neurobit_dequant_uint4_to_float, if_pos hs, hrun, ok_bind, Nat.and_one_is_mod]
  by_cases hodd : len % 2 = 1
  · have hne : len % 2 ≠ 0 := by omega
    have hld : (len - len % 2) >>> 1 < inp.length := by
      rw [Nat.shiftRight_eq_div_pow]; omega
    rw [if_pos hne, load_ok inp _ 0 hld, ok_bind, store_ok _ _ _ (by omega)]
    refine ⟨_, rfl, ?_⟩
    intro k
    rw [List.getElem?_set, Nat.shiftRight_eq_div_pow, pow_one, hget k]
    by_cases h1 : len - 1 = k
    · have h2 : k < len := by omega
      have h3 : len - 1 < o1.length := by omega
      have h4 : k % 2 = 0 := by omega
      have h5 : (len - len % 2) / 2 = k / 2 := by omega
      rw [if_pos h1, if_pos h3, if_pos h2, read_u4, if_pos h4, h5]
    · rw [if_neg h1]
      by_cases h2 : 0 ≤ k ∧ k < len - len % 2
      · rw [if_pos h2, if_pos (by omega)]
      · rw [if_neg h2, if_neg (by omega)]
  · have hne : ¬ (len % 2 ≠ 0) := by omega
    rw [if_neg hne]
    refine ⟨_, rfl, ?_⟩
    intro k
    rw [hget k]
    by_cases h2 : 0 ≤ k ∧ k < len - len % 2
    · rw [if_pos h2, if_pos (by omega)]
    · rw [if_neg h2, if_neg (by omega)]

theorem and_3_eq_mod (len : ℕ) : len &&& 3 = len % 4 :=
  Nat.and_pow_two_sub_one_eq_mod len 2

theorem quant_uint2_loop_spec (inp : List ℚ) (len : ℕ) (inv : ℚ) (zp : ℤ)
    (hin : len ≤ inp.length) :
    ∀ (fuel i : ℕ) (out : List ℕ), i % 4 = 0 → i ≤ len → len ≤ i + 4 * fuel →
      (len + 3) / 4 ≤ out.length →
      ∃ out', quant_uint2_loop inp len inv zp fuel i out = .ok (len - len % 4, out') ∧
        ∀ j, out'[j]? =
          if i / 4 ≤ j ∧ j < len / 4 then some (pack_u2 inp inv zp j) else out[j]? := by
  intro fuel
  induction fuel with
  | zero =>
    intro i out hi hle hf _
    have hc : ¬ (i + 3 < len) := by omega
    refine ⟨out, ?_, ?_⟩
    · have : len - len % 4 = i := by omega
      simp [quant_uint2_loop, hc, this]
    · intro j
      have : ¬ (i / 4 ≤ j ∧ j < len / 4) := by omega
      rw [if_neg this]
  | succ fuel ih =>
    intro i out hi hle hf hout
    by_cases hc : i + 3 < len
    · have hs : i >>> 2 < out.length := by
        rw [Nat.shiftRight_eq_div_pow]; omega
      obtain ⟨out', hrun, hget⟩ := ih (i + 4)
        (out.set (i >>> 2) (pack_u2 inp inv zp (i / 4))) (by omega) (by omega) (by omega)
        (by rw [List.length_set]; exact hout)
      refine ⟨out', ?_, ?_⟩
      · have h2 : 4 * (i / 4) = i := by omega
        rw [quant_uint2_loop, if_pos hc, load_ok inp i 0 (by omega),
          load_ok inp (i + 1) 0 (by omega), load_ok inp (i + 2) 0 (by omega),
          load_ok inp (i + 3) 0 (by omega)]
        simp only [ok_bind]
        rw [store_ok _ _ _ hs, ok_bind, ← hrun]
        simp only [pack_u2, h2]
      · intro j
        have e4 : i >>> 2 = i / 4 := by rw [Nat.shiftRight_eq_div_pow]
        rw [hget j, List.getElem?_set, e4]
        by_cases h1 : (i + 4) / 4 ≤ j ∧ j < len / 4
        · have : i / 4 ≤ j ∧ j < len / 4 := by omega
          rw [if_pos h1, if_pos this]
        · by_cases h2 : i / 4 = j
          · subst h2
            have : i / 4 ≤ i / 4 ∧ i / 4 < len / 4 := by omega
            have hlt : i / 4 < out.length := by omega
            rw [if_neg h1, if_pos rfl, if_pos hlt, if_pos this]
          · have : ¬ (i / 4 ≤ j ∧ j < len / 4) := by omega
            rw [if_neg h1, if_neg h2, if_neg this]
    · refine ⟨out, ?_, ?_⟩
      · have : len - len % 4 = i := by omega
        simp [quant_uint2_loop, hc, this]
      · intro j
        have : ¬ (i / 4 ≤ j ∧ j < len / 4) := by omega
        rw [if_neg this]

theorem quant_uint2_tail_ok (inp : List ℚ) (len : ℕ) (inv : ℚ) (zp : ℤ) (i : ℕ)
    (hin : len ≤ inp.length) (hi : i = len - len % 4) (hr : len % 4 ≠ 0) :
    quant_uint2_tail inp len inv zp i = .ok (tail_byte_u2 (len % 4)
      (code_u2 zp inv (inp.getD i 0)) (code_u2 zp inv (inp.getD (i + 1) 0))
      (code_u2 zp inv (inp.getD (i + 2) 0))) := by
  have hcases : len % 4 = 1 ∨ len % 4 = 2 ∨ len % 4 = 3 := by omega
  unfold quant_uint2_tail tail_byte_u2
  simp only [and_3_eq_mod]
  rcases hcases with h | h | h
  · simp [h, load_ok inp i 0 (by omega : i < inp.length), bind, Except.bind, pure, Except.pure]
  · simp [h, load_ok inp i 0 (by omega : i < inp.length),
      load_ok inp (i + 1) 0 (by omega : i + 1 < inp.length), bind, Except.bind, pure,
      Except.pure]
  · simp [h, load_ok inp i 0 (by omega : i < inp.length),
      load_ok inp (i + 1) 0 (by omega : i + 1 < inp.length),
      load_ok inp (i + 2) 0 (by omega : i + 2 < inp.length), bind, Except.bind, pure,
      Except.pure]

theorem quant_uint2_run (inp : List ℚ) (out : List ℕ) (len : ℕ) (scale : ℚ) (zp : ℤ)
    (hs : 0 < scale) (hin : len ≤ inp.length) (hout : (len + 3) / 4 ≤ out.length) :
    ∃ out', neurobit_quant_float_to_uint2 (some inp) (some out) len scale zp = .ok out' ∧
      ∀ j, out'[j]? =
        if j < (len + 3) / 4 then some (packed_u2 inp len (1 / scale) zp j) else out[j]? := by
  obtain ⟨o1, hrun, hget⟩ := quant_uint2_loop_spec inp len (1 / scale) zp hin len 0 out
    (by omega) (by omega) (by omega) hout
  have hlen1 : o1.length = out.length := by
    apply length_eq_of_isSome_eq
    intro j
    rw [hget j]
    by_cases h2 : 0 / 4 ≤ j ∧ j < len / 4
    · have h3 : j < out.length := by omega
      rw [if_pos h2, List.getElem?_eq_getElem h3]
      rfl
    · rw [if_neg h2]
  simp only [neurobit_quant_float_to_uint2, if_pos hs, hrun, ok_bind, and_3_eq_mod]
  by_cases hr : len % 4 ≠ 0
  · have hst : (len - len % 4) >>> 2 < o1.length := by
      rw [Nat.shiftRight_eq_div_pow]; omega
    have e4 : (len - len % 4) >>> 2 = (len - len % 4) / 4 := by
      rw [Nat.shiftRight_eq_div_pow]
    rw [if_pos hr, quant_uint2_tail_ok inp len _ zp _ hin rfl hr, ok_bind, store_ok _ _ _ hst]
    refine ⟨_, rfl, ?_⟩
    intro j
    rw [List.getElem?_set, e4, hget j]
    by_cases h1 : (len - len % 4) / 4 = j
    · have h2 : j < (len + 3) / 4 := by omega
      have h3 : (len - len % 4) / 4 < o1.length := by omega
      have h4 : ¬ (4 * j + 3 < len) := by omega
      have h5 : len - len % 4 = 4 * j := by omega
      rw [if_pos h1, if_pos h3, if_pos h2, packed_u2, if_neg h4, h5]
    · rw [if_neg h1]
      by_cases h2 : 0 / 4 ≤ j ∧ j < len / 4
      · have h3 : j < (len + 3) / 4 := by omega
        have h4 : 4 * j + 3 < len := by omega
        rw [if_pos h2, if_pos h3, packed_u2, if_pos h4]
      · have h3 : ¬ (j < (len + 3) / 4) := by omega
        rw [if_neg h2, if_neg h3]
  · rw [if_neg hr]
    refine ⟨_, rfl, ?_⟩
    intro j
    rw [hget j]
    by_cases h2 : 0 / 4 ≤ j ∧ j < len / 4
    · have h3 : j < (len + 3) / 4 := by omega
      have h4 : 4 * j + 3 < len := by omega
      rw [if_pos h2, if_pos h3, packed_u2, if_pos h4]
    · have h3 : ¬ (j < (len + 3) / 4) := by omega
      rw [if_neg h2, if_neg h3]

theorem field_u2_0 : ∀ a < 4, ∀ b < 4, ∀ c < 4, ∀ d < 4,
    (((a ||| (b <<< 2) ||| (c <<< 4) ||| (d <<< 6)) % 256) >>> 0) &&& 3 = a := by decide

theorem field_u2_1 : ∀ a < 4, ∀ b < 4, ∀ c < 4, ∀ d < 4,
    (((a ||| (b <<< 2) ||| (c <<< 4) ||| (d <<< 6)) % 256) >>> 2) &&& 3 = b := by decide

theorem field_u2_2 : ∀ a < 4, ∀ b < 4, ∀ c < 4, ∀ d < 4,
    (((a ||| (b <<< 2) ||| (c <<< 4) ||| (d <<< 6)) % 256) >>> 4) &&& 3 = c := by decide

theorem field_u2_3 : ∀ a < 4, ∀ b < 4, ∀ c < 4, ∀ d < 4,
    (((a ||| (b <<< 2) ||| (c <<< 4) ||| (d <<< 6)) % 256) >>> 6) &&& 3 = d := by decide

theorem tail_byte_u2_1 : ∀ c0 < 4, ∀ c1 c2 : ℕ,
    tail_byte_u2 1 c0 c1 c2 = c0 := by
  intro c0 h0 c1 c2
  have e : tail_byte_u2 1 c0 c1 c2 = (0 ||| c0) % 256 := rfl
  rw [e]
  clear e
  revert c0
  decide

theorem tail_byte_u2_2 : ∀ c0 < 4, ∀ c1 < 4, ∀ c2 : ℕ,
    tail_byte_u2 2 c0 c1 c2 < 16 ∧ (tail_byte_u2 2 c0 c1 c2 >>> 0) &&& 3 = c0 ∧
      (tail_byte_u2 2 c0 c1 c2 >>> 2) &&& 3 = c1 := by
  intro c0 h0 c1 h1 c2
  have e : tail_byte_u2 2 c0 c1 c2 = (((0 ||| (c1 <<< 2)) % 256) ||| c0) % 256 := rfl
  rw [e]
  clear e
  revert c0 c1
  decide

theorem tail_byte_u2_3 : ∀ c0 < 4, ∀ c1 < 4, ∀ c2 < 4,
    tail_byte_u2 3 c0 c1 c2 < 64 ∧ (tail_byte_u2 3 c0 c1 c2 >>> 0) &&& 3 = c0 ∧
      (tail_byte_u2 3 c0 c1 c2 >>> 2) &&& 3 = c1 ∧
      (tail_byte_u2 3 c0 c1 c2 >>> 4) &&& 3 = c2 := by
  decide

theorem field_self : ∀ a < 4, (a >>> 0) &&& 3 = a := by decide

theorem packed_u2_field (inp : List ℚ) (len : ℕ) (inv : ℚ) (zp : ℤ) (k : ℕ) (hk : k < len) :
    (packed_u2 inp len inv zp (k / 4) >>> (2 * (k % 4))) &&& 3 =
      code_u2 zp inv (inp.getD k 0) := by
  have hmod : k % 4 = 0 ∨ k % 4 = 1 ∨ k % 4 = 2 ∨ k % 4 = 3 := by omega
  unfold packed_u2
  by_cases h : 4 * (k / 4) + 3 < len
  · rw [if_pos h, pack_u2]
    rcases hmod with h0 | h0 | h0 | h0
    · have hk2 : 4 * (k / 4) = k := by omega
      rw [h0, hk2]
      exact field_u2_0 _ (code_u2_lt _ _ _) _ (code_u2_lt _ _ _) _ (code_u2_lt _ _ _) _
        (code_u2_lt _ _ _)
    · have hk2 : 4 * (k / 4) + 1 = k := by omega
      rw [h0, hk2]
      exact field_u2_1 _ (code_u2_lt _ _ _) _ (code_u2_lt _ _ _) _ (code_u2_lt _ _ _) _
        (code_u2_lt _ _ _)
    · have hk2 : 4 * (k / 4) + 2 = k := by omega
      rw [h0, hk2]
      exact field_u2_2 _ (code_u2_lt _ _ _) _ (code_u2_lt _ _ _) _ (code_u2_lt _ _ _) _
        (code_u2_lt _ _ _)
    · have hk2 : 4 * (k / 4) + 3 = k := by omega
      rw [h0, hk2]
      exact field_u2_3 _ (code_u2_lt _ _ _) _ (code_u2_lt _ _ _) _ (code_u2_lt _ _ _) _
        (code_u2_lt _ _ _)
  · rw [if_neg h]
    have hr : len % 4 = 1 ∨ len % 4 = 2 ∨ len % 4 = 3 := by omega
    rcases hr with hr | hr | hr
    · have h0 : k % 4 = 0 := by omega
      have hk2 : 4 * (k / 4) = k := by omega
      rw [hr, h0, hk2, tail_byte_u2_1 _ (code_u2_lt _ _ _)]
      exact field_self _ (code_u2_lt _ _ _)
    · have h2 := tail_byte_u2_2 (code_u2 zp inv (inp.getD (4 * (k / 4)) 0)) (code_u2_lt _ _ _)
        (code_u2 zp inv (inp.getD (4 * (k / 4) + 1) 0)) (code_u2_lt _ _ _)
        (code_u2 zp inv (inp.getD (4 * (k / 4) + 2) 0))
      rw [hr]
      have hm : k % 4 = 0 ∨ k % 4 = 1 := by omega
      rcases hm with h0 | h0
      · have hk2 : 4 * (k / 4) = k := by omega
        rw [h0]; rw [hk2] at h2 ⊢; exact h2.2.1
      · have hk2 : 4 * (k / 4) + 1 = k := by omega
        rw [h0]; rw [hk2] at h2 ⊢; exact h2.2.2
    · have h2 := tail_byte_u2_3 (code_u2 zp inv (inp.getD (4 * (k / 4)) 0)) (code_u2_lt _ _ _)
        (code_u2 zp inv (inp.getD (4 * (k / 4) + 1) 0)) (code_u2_lt _ _ _)
        (code_u2 zp inv (inp.getD (4 * (k / 4) + 2) 0)) (code_u2_lt _ _ _)
      rw [hr]
      have hm : k % 4 = 0 ∨ k % 4 = 1 ∨ k % 4 = 2 := by omega
      rcases hm with h0 | h0 | h0
      · have hk2 : 4 * (k / 4) = k := by omega
        rw [h0]; rw [hk2] at h2 ⊢; exact h2.2.1
      · have hk2 : 4 * (k / 4) + 1 = k := by omega
        rw [h0]; rw [hk2] at h2 ⊢; exact h2.2.2.1
      · have hk2 : 4 * (k / 4) + 2 = k := by omega
        rw [h0]; rw [hk2] at h2 ⊢; exact h2.2.2.2

/-! ## Layout of the quantised buffers -/

theorem getD_of_getElem? {α : Type} (l : List α) (i : ℕ) (d v : α) (h : l[i]? = some v) :
    l.getD i d = v := by
  rw [List.getD_eq_getElem?_getD, h]
  rfl

theorem quant_uint4_fields (inp : List ℚ) (out : List ℕ) (len : ℕ) (scale : ℚ) (zp : ℤ)
    (hs : 0 < scale) (hin : len ≤ inp.length) (hout : (len + 1) / 2 ≤ out.length) :
    ∃ out', neurobit_quant_float_to_uint4 (some inp) (some out) len scale zp = .ok out' ∧
      ∀ k < len, (out'.getD (k / 2) 0 >>> (4 * (k % 2))) &&& 15 =
        code_u4 zp (1 / scale) (inp.getD k 0) := by
  obtain ⟨out', hrun, hget⟩ := quant_uint4_run inp out len scale zp hs hin hout
  refine ⟨out', hrun, ?_⟩
  intro k hk
  have h1 := hget (k / 2)
  rw [if_pos (by omega)] at h1
  rw [getD_of_getElem? _ _ _ _ h1]
  exact packed_u4_nibble inp len (1 / scale) zp k hk

theorem quant_uint2_fields (inp : List ℚ) (out : List ℕ) (len : ℕ) (scale : ℚ) (zp : ℤ)
    (hs : 0 < scale) (hin : len ≤ inp.length) (hout : (len + 3) / 4 ≤ out.length) :
    ∃ out', neurobit_quant_float_to_uint2 (some inp) (some out) len scale zp = .ok out' ∧
      ∀ k < len, (out'.getD (k / 4) 0 >>> (2 * (k % 4))) &&& 3 =
        code_u2 zp (1 / scale) (inp.getD k 0) := by
  obtain ⟨out', hrun, hget⟩ := quant_uint2_run inp out len scale zp hs hin hout
  refine ⟨out', hrun, ?_⟩
  intro k hk
  have h1 := hget (k / 4)
  rw [if_pos (by omega)] at h1
  rw [getD_of_getElem? _ _ _ _ h1]
  exact packed_u2_field inp len (1 / scale) zp k hk

theorem test_input_no_overflow :
    ∀ k < 7, isInt32 (test_zp + roundf (test_input.getD k 0 / test_scale)) := by
  intro k hk
  interval_cases k <;> norm_num [test_input, test_scale, test_zp, roundf, isInt32]

theorem tail_byte_u2_lt (r c0 c1 c2 : ℕ) (hr : r = 1 ∨ r = 2 ∨ r = 3) (h0 : c0 < 4)
    (h1 : c1 < 4) (h2 : c2 < 4) : tail_byte_u2 r c0 c1 c2 < 4 ^ r := by
  rcases hr with h | h | h
  · subst h
    rw [tail_byte_u2_1 c0 h0 c1 c2]
    omega
  · subst h
    exact (tail_byte_u2_2 c0 h0 c1 h1 c2).1
  · subst h
    exact (tail_byte_u2_3 c0 h0 c1 h1 c2 h2).1

/-- C10. Unused tail bits are zero on encode: for every input, if `len` is odd the last byte
written by `neurobit_quant_float_to_uint4` (index `len div 2`) is below `16`, and if
`r = len mod 4` is non-zero the last byte written by `neurobit_quant_float_to_uint2`
(index `len div 4`) is below `4^r`. -/
theorem quant_tail_bits_zero (inp : List ℚ) (out : List ℕ) (len : ℕ) (scale : ℚ)
    (zero_point : ℤ) (hscale : 0 < scale) (hin : len ≤ inp.length) :
    (len % 2 = 1 → (len + 1) / 2 ≤ out.length →
      ∃ out' b, neurobit_quant_float_to_uint4 (some inp) (some out) len scale zero_point
          = .ok out' ∧ out'[len / 2]? = some b ∧ b < 16) ∧
    (len % 4 ≠ 0 → (len + 3) / 4 ≤ out.length →
      ∃ out' b, neurobit_quant_float_to_uint2 (some inp) (some out) len scale zero_point
          = .ok out' ∧ out'[len / 4]? = some b ∧ b < 4 ^ (len % 4)) := by
  constructor
  · intro hodd hout
    obtain ⟨out', hrun, hget⟩ := quant_uint4_run inp out len scale zero_point hscale hin hout
    refine ⟨out', packed_u4 inp len (1 / scale) zero_point (len / 2), hrun, ?_, ?_⟩
    · rw [hget (len / 2), if_pos (by omega)]
    · rw [packed_u4, if_neg (by omega)]
      exact code_u4_lt _ _ _
  · intro hr hout
    obtain ⟨out', hrun, hget⟩ := quant_uint2_run inp out len scale zero_point hscale hin hout
    refine ⟨out', packed_u2 inp len (1 / scale) zero_point (len / 4), hrun, ?_, ?_⟩
    · rw [hget (len / 4), if_pos (by omega)]
    · rw [packed_u2, if_neg (by omega)]
      exact tail_byte_u2_lt _ _ _ _ (by omega) (code_u2_lt _ _ _) (code_u2_lt _ _ _)
        (code_u2_lt _ _ _)

/-- Witness for C10: the seven samples of the test (odd length, remainder 3 modulo 4). -/
theorem quant_tail_bits_zero_witness :
    (∃ out' b, neurobit_quant_float_to_uint4 (some test_input) (some [0, 0, 0, 0]) 7
        test_scale test_zp = .ok out' ∧ out'[7 / 2]? = some b ∧ b < 16) ∧
    (∃ out' b, neurobit_quant_float_to_uint2 (some test_input) (some [0, 0, 0, 0]) 7
        test_scale test_zp = .ok out' ∧ out'[7 / 4]? = some b ∧ b < 4 ^ (7 % 4)) :=
  ⟨(quant_tail_bits_zero test_input [0, 0, 0, 0] 7 test_scale test_zp
      (by norm_num [test_scale]) (by simp [test_input])).1 (by decide) (by simp),
    (quant_tail_bits_zero test_input [0, 0, 0, 0] 7 test_scale test_zp
      (by norm_num [test_scale]) (by simp [test_input])).2 (by decide) (by simp)⟩

/-! ## Decoding -/

theorem read_u4_eq (inp : List ℕ) (k : ℕ) (hb : inp.getD (k / 2) 0 < 256) :
    read_u4 inp k = (inp.getD (k / 2) 0 >>> (4 * (k % 2))) &&& 15 := by
  unfold read_u4
  rcases Nat.mod_two_eq_zero_or_one k with h | h
  · rw [if_pos h, h]
    rfl
  · have hne : ¬ (k % 2 = 0) := by omega
    rw [if_neg hne, h]
    have e : inp.getD (k / 2) 0 >>> (4 * 1) &&& 15 = (inp.getD (k / 2) 0 >>> 4) % 16 :=
      Nat.and_pow_two_sub_one_eq_mod _ 4
    rw [e, Nat.shiftRight_eq_div_pow]
    omega

theorem getD_lt_of_forall (inp : List ℕ) (j : ℕ) (hb : ∀ p ∈ inp, p < 256) :
    inp.getD j 0 < 256 := by
  by_cases hj : j < inp.length
  · rw [List.getD_eq_getElem _ _ hj]
    exact hb _ (List.getElem_mem hj)
  · rw [List.getD_eq_getElem?_getD, List.getElem?_eq_none (by omega)]
    decide

theorem dequant_value_eq (c : ℕ) (scale : ℚ) (zp : ℤ) (h : isInt32 ((c : ℤ) - zp)) :
    dequant_value c scale zp = (((c : ℤ) - zp : ℤ) : ℚ) * scale := by
  unfold dequant_value
  rw [wrap32_of_isInt32 h]

theorem packed_u4_lt (inp : List ℚ) (len : ℕ) (inv : ℚ) (zp : ℤ) (j : ℕ) :
    packed_u4 inp len inv zp j < 256 := by
  unfold packed_u4
  split_ifs
  · unfold pack_u4
    exact Nat.mod_lt _ (by decide)
  · have := code_u4_lt zp inv (inp.getD (2 * j) 0)
    omega

theorem abs_roundf_sub_le (y : ℚ) : |(roundf y : ℚ) - y| ≤ 1 / 2 := by
  unfold roundf
  split_ifs with h
  · have h1 := Int.floor_le (y + 1 / 2)
    have h2 := Int.lt_floor_add_one (y + 1 / 2)
    rw [abs_le]
    constructor <;> linarith
  · have h1 := Int.floor_le (-y + 1 / 2)
    have h2 := Int.lt_floor_add_one (-y + 1 / 2)
    rw [abs_le]
    push_cast
    constructor <;> linarith

/-- Quantising and then dequantising: every output is the affine value of the code the
encoder computed for that sample (all `int32_t` operations reduced modulo `2^32`). -/
theorem roundtrip_uint4_codes (inp : List ℚ) (out1 : List ℕ) (out2 : List ℚ) (len : ℕ)
    (scale : ℚ) (zp : ℤ) (hs : 0 < scale) (hin : len ≤ inp.length)
    (hout1 : (len + 1) / 2 ≤ out1.length) (hout2 : len ≤ out2.length) :
    ∃ packed res,
      neurobit_quant_float_to_uint4 (some inp) (some out1) len scale zp = .ok packed ∧
      neurobit_dequant_uint4_to_float (some packed) (some out2) len scale zp = .ok res ∧
      ∀ k < len, res[k]? =
        some (dequant_value (code_u4 zp (1 / scale) (inp.getD k 0)) scale zp) := by
  obtain ⟨packed, hrun1, hget1⟩ := quant_uint4_run inp out1 len scale zp hs hin hout1
  have hlen : packed.length = out1.length := by
    apply length_eq_of_isSome_eq
    intro j
    rw [hget1 j]
    by_cases h : j < (len + 1) / 2
    · rw [if_pos h, List.getElem?_eq_getElem (by omega : j < out1.length)]
      rfl
    · rw [if_neg h]
  obtain ⟨res, hrun2, hget2⟩ := dequant_uint4_run packed out2 len scale zp hs (by omega) hout2
  refine ⟨packed, res, hrun1, hrun2, ?_⟩
  intro k hk
  have hb := hget1 (k / 2)
  rw [if_pos (by omega)] at hb
  have hD := getD_of_getElem? _ _ 0 _ hb
  rw [hget2 k, if_pos hk, read_u4_eq packed k (by rw [hD]; exact packed_u4_lt _ _ _ _ _), hD,
    packed_u4_nibble inp len (1 / scale) zp k hk]

/-- C6 (as amended). `neurobit_dequant_uint4_to_float` is correct for every length: for every
`len`, every packed buffer of at least `(len+1)/2` bytes (arbitrary byte values), `scale > 0`
and every `zero_point` for which each difference `c_k - zero_point` fits in `int32_t`, the call
returns and `out[k] = (c_k - zero_point) * scale` for every `k < len`, where
`c_k = (in[k div 2] >> (4 * (k mod 2))) & 15`; for odd `len` the last value is taken from the
low nibble of the last byte, and the whole result is unchanged when that byte is replaced by
one with the same low nibble. -/
theorem dequant_uint4_correct (inp : List ℕ) (out : List ℚ) (len : ℕ) (scale : ℚ)
    (zero_point : ℤ) (hscale : 0 < scale) (hin : (len + 1) / 2 ≤ inp.length)
    (hout : len ≤ out.length) (hbytes : ∀ p ∈ inp, p < 256)
    (hsub : ∀ k < len,
      isInt32 ((((inp.getD (k / 2) 0 >>> (4 * (k % 2))) &&& 15 : ℕ) : ℤ) - zero_point)) :
    ∃ out', neurobit_dequant_uint4_to_float (some inp) (some out) len scale zero_point
        = .ok out' ∧
      (∀ k < len, out'[k]? = some
        (((((inp.getD (k / 2) 0 >>> (4 * (k % 2))) &&& 15 : ℕ) : ℤ) - zero_point : ℤ) * scale)) ∧
      (len % 2 = 1 → out'[len - 1]? = some
        (((((inp.getD (len / 2) 0) &&& 15 : ℕ) : ℤ) - zero_point : ℤ) * scale)) ∧
      (len % 2 = 1 → ∀ inp2 : List ℕ, inp2.length = inp.length →
        (∀ j : ℕ, j ≠ len / 2 → inp2[j]? = inp[j]?) →
        inp2.getD (len / 2) 0 &&& 15 = inp.getD (len / 2) 0 &&& 15 →
        neurobit_dequant_uint4_to_float (some inp2) (some out) len scale zero_point
          = .ok out') := by
  obtain ⟨out', hrun, hget⟩ := dequant_uint4_run inp out len scale zero_point hscale hin hout
  have hval : ∀ k < len, out'[k]? = some
      (((((inp.getD (k / 2) 0 >>> (4 * (k % 2))) &&& 15 : ℕ) : ℤ) - zero_point : ℤ) * scale) := by
    intro k hk
    rw [hget k, if_pos hk, read_u4_eq inp k (getD_lt_of_forall inp _ hbytes),
      dequant_value_eq _ _ _ (hsub k hk)]
  refine ⟨out', hrun, hval, ?_, ?_⟩
  · intro hodd
    have h := hval (len - 1) (by omega)
    have e1 : (len - 1) / 2 = len / 2 := by omega
    have e2 : (len - 1) % 2 = 0 := by omega
    rw [e1, e2] at h
    exact h
  · intro hodd inp2 hlen2 hsame hlow
    obtain ⟨o2, hrun2, hget2⟩ := dequant_uint4_run inp2 out len scale zero_point hscale
      (by omega) hout
    rw [hrun2]
    congr 1
    apply List.ext_getElem?
    intro k
    rw [hget k, hget2 k]
    by_cases hk : k < len
    · rw [if_pos hk, if_pos hk]
      have : read_u4 inp2 k = read_u4 inp k := by
        unfold read_u4
        by_cases hj : k / 2 = len / 2
        · have hk2 : k % 2 = 0 := by omega
          rw [if_pos hk2, if_pos hk2, hj, hlow]
        · rw [List.getD_eq_getElem?_getD, List.getD_eq_getElem?_getD, hsame _ hj]
      rw [this]
    · rw [if_neg hk, if_neg hk]

/-- Witness for C6 (as amended): the packed image `[46, 214, 61, 2]` of the test, decoded with
its `len = 7`, `scale` and zero point `8`. -/
theorem dequant_uint4_correct_witness :
    ∃ out', neurobit_dequant_uint4_to_float (some [46, 214, 61, 2])
        (some [0, 0, 0, 0, 0, 0, 0]) 7 test_scale test_zp = .ok out' ∧
      (∀ k < 7, out'[k]? = some
        ((((((([46, 214, 61, 2] : List ℕ).getD (k / 2) 0 >>> (4 * (k % 2))) &&& 15 : ℕ) : ℤ)
          - test_zp : ℤ) : ℚ) * test_scale)) ∧
      out'[7 - 1]? = some ((((2 : ℤ) - test_zp : ℤ) : ℚ) * test_scale) := by
  obtain ⟨out', hrun, hval, hlast, _⟩ := dequant_uint4_correct [46, 214, 61, 2]
    [0, 0, 0, 0, 0, 0, 0] 7 test_scale test_zp (by norm_num [test_scale]) (by simp) (by simp)
    (by decide) (by intro k hk; interval_cases k <;> decide)
  exact ⟨out', hrun, hval, hlast (by decide)⟩

/-- Counterexample to C6 as stated: with `zero_point = INT32_MIN` the subtraction
`c_0 - zero_point = 2^31` does not fit in `int32_t`; the decoder produces `-2^31 * scale`
where the claim says `2^31 * scale`. -/
theorem dequant_uint4_counterexample :
    isInt32 (-2147483648) ∧
      neurobit_dequant_uint4_to_float (some [0]) (some [0]) 1 1 (-2147483648)
        = .ok [-2147483648] ∧
      (-2147483648 : ℚ) ≠
        (((((([0] : List ℕ).getD (0 / 2) 0 >>> (4 * (0 % 2))) &&& 15 : ℕ) : ℤ)
          - (-2147483648) : ℤ) : ℚ) * 1 := by
  refine ⟨by decide, ?_, by norm_num⟩
  norm_num [neurobit_dequant_uint4_to_float, dequant_uint4_loop, dequant_value, wrap32, load,
    store, bind, Except.bind]

/-! ## Round trips -/

/-- C7 (as amended). Round-trip error bound, 4-bit, in exact arithmetic: for every `len`,
every `k < len`, every `scale > 0` and `zero_point`, if the rounded quotient
`round(in[k]/scale)` fits in `int32_t` and the true code `zero_point + round(in[k]/scale)`
lies in `[0, 15]`, then quantising and dequantising returns a value within `scale/2` of
`in[k]`. -/
theorem roundtrip_uint4_error_bound (inp : List ℚ) (out1 : List ℕ) (out2 : List ℚ) (len : ℕ)
    (scale : ℚ) (zero_point : ℤ) (k : ℕ) (hscale : 0 < scale) (hin : len ≤ inp.length)
    (hout1 : (len + 1) / 2 ≤ out1.length) (hout2 : len ≤ out2.length) (hk : k < len)
    (hr : isInt32 (roundf (inp.getD k 0 / scale)))
    (hlo : 0 ≤ zero_point + roundf (inp.getD k 0 / scale))
    (hhi : zero_point + roundf (inp.getD k 0 / scale) ≤ 15) :
    ∃ packed res v,
      neurobit_quant_float_to_uint4 (some inp) (some out1) len scale zero_point
        = .ok packed ∧
      neurobit_dequant_uint4_to_float (some packed) (some out2) len scale zero_point
        = .ok res ∧
      res[k]? = some v ∧ |v - inp.getD k 0| ≤ scale / 2 := by
  obtain ⟨packed, res, h1, h2, hval⟩ :=
    roundtrip_uint4_codes inp out1 out2 len scale zero_point hscale hin hout1 hout2
  refine ⟨packed, res, _, h1, h2, hval k hk, ?_⟩
  have hsum : isInt32 (zero_point + roundf (inp.getD k 0 / scale)) := by
    unfold isInt32; omega
  have hc := code_u4_eq zero_point scale (inp.getD k 0) hsum
  rw [max_eq_right (le_min (by norm_num) hlo), min_eq_right hhi] at hc
  have hd : dequant_value (code_u4 zero_point (1 / scale) (inp.getD k 0)) scale zero_point
      = ((roundf (inp.getD k 0 / scale) : ℤ) : ℚ) * scale := by
    unfold dequant_value
    rw [hc, add_sub_cancel_left, wrap32_of_isInt32 hr]
  rw [hd]
  have hround := abs_roundf_sub_le (inp.getD k 0 / scale)
  have e : ((roundf (inp.getD k 0 / scale) : ℤ) : ℚ) * scale - inp.getD k 0
      = (((roundf (inp.getD k 0 / scale) : ℤ) : ℚ) - inp.getD k 0 / scale) * scale := by
    field_simp
  rw [e, abs_mul, abs_of_pos hscale]
  calc |((roundf (inp.getD k 0 / scale) : ℤ) : ℚ) - inp.getD k 0 / scale| * scale
      ≤ 1 / 2 * scale := mul_le_mul_of_nonneg_right hround hscale.le
    _ = scale / 2 := by ring

/-- Witness for C7 (as amended): sample 3 of the test vector (code 13). -/
theorem roundtrip_uint4_error_bound_witness :
    ∃ packed res v,
      neurobit_quant_float_to_uint4 (some test_input) (some [0, 0, 0, 0]) 7 test_scale test_zp
        = .ok packed ∧
      neurobit_dequant_uint4_to_float (some packed) (some [0, 0, 0, 0, 0, 0, 0]) 7 test_scale
        test_zp = .ok res ∧
      res[3]? = some v ∧ |v - test_input.getD 3 0| ≤ test_scale / 2 :=
  roundtrip_uint4_error_bound test_input [0, 0, 0, 0] [0, 0, 0, 0, 0, 0, 0] 7 test_scale
    test_zp 3 (by norm_num [test_scale]) (by simp [test_input]) (by simp) (by simp)
    (by norm_num) (by norm_num [test_input, test_scale, roundf, isInt32])
    (by norm_num [test_input, test_scale, test_zp, roundf])
    (by norm_num [test_input, test_scale, test_zp, roundf])

/-- Counterexample to C7 as stated: for `zero_point = INT32_MIN` and the sample `2^31` (scale
1) the true code `zero_point + round(2^31) = 0` lies in `[0, 15]`, but the rounded quotient
does not fit in `int32_t`; the round trip returns `-2^31`, at distance `2^32` from the
sample. -/
theorem roundtrip_uint4_error_bound_counterexample :
    (0 : ℚ) < 1 ∧ isInt32 (-2147483648) ∧
      0 ≤ -2147483648 + roundf ((2147483648 : ℚ) / 1) ∧
      -2147483648 + roundf ((2147483648 : ℚ) / 1) ≤ 15 ∧
      neurobit_quant_float_to_uint4 (some [2147483648]) (some [0]) 1 1 (-2147483648)
        = .ok [0] ∧
      neurobit_dequant_uint4_to_float (some [0]) (some [0]) 1 1 (-2147483648)
        = .ok [-2147483648] ∧
      ¬ (|(-2147483648 : ℚ) - 2147483648| ≤ 1 / 2) := by
  refine ⟨by norm_num, by decide, by norm_num [roundf], by norm_num [roundf], ?_, ?_,
    by norm_num [abs_le]⟩
  · norm_num [neurobit_quant_float_to_uint4, quant_uint4_loop, code_u4, sat_u4, u8, roundf,
      wrap32, load, store, bind, Except.bind]
  · norm_num [neurobit_dequant_uint4_to_float, dequant_uint4_loop, dequant_value, wrap32, load,
      store, bind, Except.bind]

/-! ## The tail of the 2-bit decoder -/

/-- C1 (the code departs from the claim). `neurobit_dequant_uint2_to_float` on the one-byte
buffer `[1]` (code 1 at bit offset 0) with `len = 1`, `scale = 1`, `zero_point = 0` returns
`out[0] = 0`, the field at bit offset 4, where the claim gives `(c_0 - 0) * 1 = 1`; and on
`[9]` (codes 1, 2 at offsets 0, 2) with `len = 2` it returns `[0, 2]` where the claim
gives `[1, 2]`. -/
theorem dequant_uint2_tail_reads_offset_4 :
    neurobit_dequant_uint2_to_float (some [1]) (some [0]) 1 1 0 = .ok [0] ∧
      ((((([1] : List ℕ).getD (0 / 4) 0 >>> (2 * (0 % 4))) &&& 3 : ℕ) : ℤ) - 0 : ℤ) * (1 : ℚ)
        = 1 ∧
      neurobit_dequant_uint2_to_float (some [9]) (some [0, 0]) 2 1 0 = .ok [0, 2] ∧
      ((((([9] : List ℕ).getD (0 / 4) 0 >>> (2 * (0 % 4))) &&& 3 : ℕ) : ℤ) - 0 : ℤ) * (1 : ℚ)
        = 1 := by
  refine ⟨?_, by with_unfolding_all rfl, ?_, by with_unfolding_all rfl⟩
  · with_unfolding_all rfl
  · with_unfolding_all rfl

/-- C2 (the code departs from the claim). Quantising the two samples `[3, 1]` with
`scale = 1`, `zero_point = 0` stores the byte `7` (codes 3 and 1); dequantising that byte
with the same parameters returns `[0, 1]`, whereas the claim gives
`(clamp(0 + round(3/1), 0, 3) - 0) * 1 = 3` for the first sample. -/
theorem roundtrip_uint2_loses_first_tail_code :
    neurobit_quant_float_to_uint2 (some [3, 1]) (some [0]) 2 1 0 = .ok [7] ∧
      neurobit_dequant_uint2_to_float (some [7]) (some [0, 0]) 2 1 0 = .ok [0, 1] ∧
      isInt32 (0 + roundf ((3 : ℚ) / 1)) ∧
      ((max 0 (min 3 (0 + roundf ((3 : ℚ) / 1))) - 0 : ℤ) : ℚ) * 1 = 3 := by
  refine ⟨?_, ?_, by norm_num [roundf, isInt32], by norm_num [roundf]⟩
  · with_unfolding_all rfl
  · with_unfolding_all rfl

/-- C8 (the code departs from the claim). For the single sample `2` with `scale = 1`,
`zero_point = 0` the true code `0 + round(2/1) = 2` lies in `[0, 3]`; quantising stores the
byte `2`, dequantising it with `len = 1` returns `0`, at distance `2 > scale/2` from the
sample. -/
theorem roundtrip_uint2_error_exceeds_bound :
    0 ≤ 0 + roundf ((2 : ℚ) / 1) ∧ 0 + roundf ((2 : ℚ) / 1) ≤ 3 ∧
      neurobit_quant_float_to_uint2 (some [2]) (some [0]) 1 1 0 = .ok [2] ∧
      neurobit_dequant_uint2_to_float (some [2]) (some [0]) 1 1 0 = .ok [0] ∧
      ¬ (|(0 : ℚ) - 2| ≤ 1 / 2) := by
  refine ⟨by norm_num [roundf], by norm_num [roundf], ?_, ?_, by norm_num [abs_le]⟩
  · with_unfolding_all rfl
  · with_unfolding_all rfl

/-! ## The 2-bit decoder -/

theorem and_2_eq (x : ℕ) : x &&& 2 = 2 * (x / 2 % 2) := by
  have h := Nat.and_two_pow x 1
  rw [pow_one] at h
  rw [h, Nat.testBit_to_div_mod, pow_one]
  rcases Nat.mod_two_eq_zero_or_one (x / 2) with h0 | h0 <;> simp [h0]

theorem dequant_uint2_loop_spec (inp : List ℕ) (len : ℕ) (scale : ℚ) (zp : ℤ)
    (hin : (len + 3) / 4 ≤ inp.length) :
    ∀ (fuel i j : ℕ) (out : List ℚ), i % 4 = 0 → i ≤ len → j = i / 4 → len ≤ i + 4 * fuel →
      len ≤ out.length →
      ∃ out', dequant_uint2_loop inp len scale zp fuel i j out =
          .ok (len - len % 4, len / 4, out') ∧
        ∀ k, out'[k]? =
          if i ≤ k ∧ k < len - len % 4 then
            some (dequant_value ((inp.getD (k / 4) 0 >>> (2 * (k % 4))) &&& 3) scale zp)
          else out[k]? := by
  intro fuel
  induction fuel with
  | zero =>
    intro i j out hi hle hj hf _
    have hc : ¬ (i + 3 < len) := by omega
    refine ⟨out, ?_, ?_⟩
    · have h1 : len - len % 4 = i := by omega
      have h2 : len / 4 = j := by omega
      simp [dequant_uint2_loop, hc, h1, h2]
    · intro k
      have : ¬ (i ≤ k ∧ k < len - len % 4) := by omega
      rw [if_neg this]
  | succ fuel ih =>
    intro i j out hi hle hj hf hout
    by_cases hc : i + 3 < len
    · have q0 : i / 4 = j := hj.symm
      have q1 : (i + 1) / 4 = j := by omega
      have q2 : (i + 2) / 4 = j := by omega
      have q3 : (i + 3) / 4 = j := by omega
      have r0 : i % 4 = 0 := hi
      have r1 : (i + 1) % 4 = 1 := by omega
      have r2 : (i + 2) % 4 = 2 := by omega
      have r3 : (i + 3) % 4 = 3 := by omega
      obtain ⟨out', hrun, hget⟩ := ih (i + 4) (j + 1)
        ((((out.set i (dequant_value (inp.getD j 0 &&& 3) scale zp)).set (i + 1)
          (dequant_value ((inp.getD j 0 >>> 2) &&& 3) scale zp)).set (i + 2)
          (dequant_value ((inp.getD j 0 >>> 4) &&& 3) scale zp)).set (i + 3)
          (dequant_value ((inp.getD j 0 >>> 6) &&& 3) scale zp))
        (by omega) (by omega) (by omega) (by omega)
        (by simp only [List.length_set]; exact hout)
      refine ⟨out', ?_, ?_⟩
      · rw [dequant_uint2_loop, if_pos hc, load_ok inp j 0 (by omega), ok_bind,
          store_ok out i _ (by omega), ok_bind,
          store_ok _ (i + 1) _ (by simp only [List.length_set]; omega), ok_bind,
          store_ok _ (i + 2) _ (by simp only [List.length_set]; omega), ok_bind,
          store_ok _ (i + 3) _ (by simp only [List.length_set]; omega), ok_bind, ← hrun]
      · intro k
        rw [hget k]
        simp only [List.getElem?_set, List.length_set]
        by_cases h1 : i + 4 ≤ k ∧ k < len - len % 4
        · have : i ≤ k ∧ k < len - len % 4 := by omega
          rw [if_pos h1, if_pos this]
        · rw [if_neg h1]
          by_cases h3 : i + 3 = k
          · subst h3
            have : i ≤ i + 3 ∧ i + 3 < len - len % 4 := by omega
            rw [if_pos rfl, if_pos (by omega), if_pos this, q3, r3]
          · rw [if_neg h3]
            by_cases h2 : i + 2 = k
            · subst h2
              have : i ≤ i + 2 ∧ i + 2 < len - len % 4 := by omega
              rw [if_pos rfl, if_pos (by omega), if_pos this, q2, r2]
            · rw [if_neg h2]
              by_cases h1' : i + 1 = k
              · subst h1'
                have : i ≤ i + 1 ∧ i + 1 < len - len % 4 := by omega
                rw [if_pos rfl, if_pos (by omega), if_pos this, q1, r1]
              · rw [if_neg h1']
                by_cases h0 : i = k
                · subst h0
                  have : i ≤ i ∧ i < len - len % 4 := by omega
                  rw [if_pos rfl, if_pos (by omega), if_pos this, q0, r0]
                  rfl
                · have : ¬ (i ≤ k ∧ k < len - len % 4) := by omega
                  rw [if_neg h0, if_neg this]
    · refine ⟨out, ?_, ?_⟩
      · have h1 : len - len % 4 = i := by omega
        have h2 : len / 4 = j := by omega
        simp [dequant_uint2_loop, hc, h1, h2]
      · intro k
        have : ¬ (i ≤ k ∧ k < len - len % 4) := by omega
        rw [if_neg this]

theorem dequant_uint2_tail_spec (inp : List ℕ) (len : ℕ) (scale : ℚ) (zp : ℤ) (out : List ℚ)
    (hin : (len + 3) / 4 ≤ inp.length) (hout : len ≤ out.length) (hr : len % 4 ≠ 0) :
    ∃ out', dequant_uint2_tail inp len scale zp (len - len % 4) out = .ok out' ∧
      ∀ k, out'[k]? =
        if len - len % 4 ≤ k ∧ k < len then some (dequant_value (read_u2 inp len k) scale zp)
        else out[k]? := by
  have hcases : len % 4 = 1 ∨ len % 4 = 2 ∨ len % 4 = 3 := by omega
  have e4 : (len - len % 4) >>> 2 = len / 4 := by
    rw [Nat.shiftRight_eq_div_pow]; omega
  have hld : len / 4 < inp.length := by omega
  unfold dequant_uint2_tail
  rw [e4, load_ok inp _ 0 hld, ok_bind]
  rcases hcases with h | h | h
  · have b1 : len &&& 1 = 1 := by rw [Nat.and_one_is_mod]; omega
    have b2 : len &&& 2 = 0 := by rw [and_2_eq]; omega
    have b3 : len &&& 3 = 1 := by rw [and_3_eq_mod]; omega
    simp +decide only [b1, b2, b3, if_true, if_false, pure, Except.pure, ok_bind]
    rw [store_ok _ _ _ (by omega), ok_bind,
      store_ok _ _ _ (by rw [List.length_set]; omega)]
    refine ⟨_, rfl, ?_⟩
    intro k
    simp only [List.getElem?_set, List.length_set, Nat.add_zero]
    by_cases hk : len - len % 4 = k
    · have c1 : len - len % 4 ≤ k ∧ k < len := by omega
      have c2 : (len % 4 = 1 ∨ len % 4 = 2) ∧ k = len - len % 4 := by omega
      have c3 : k / 4 = len / 4 := by omega
      rw [if_pos hk, if_pos (by omega), if_pos c1, read_u2, if_pos c2, c3]
    · have c1 : ¬ (len - len % 4 ≤ k ∧ k < len) := by omega
      rw [if_neg hk, if_neg hk, if_neg c1]
  · have b1 : len &&& 1 = 0 := by rw [Nat.and_one_is_mod]; omega
    have b2 : len &&& 2 = 2 := by rw [and_2_eq]; omega
    have b3 : len &&& 3 = 2 := by rw [and_3_eq_mod]; omega
    simp +decide only [b1, b2, b3, if_true, if_false, pure, Except.pure, ok_bind]
    rw [store_ok _ _ _ (by omega), ok_bind,
      store_ok _ _ _ (by rw [List.length_set]; omega)]
    refine ⟨_, rfl, ?_⟩
    intro k
    simp only [List.getElem?_set, List.length_set, Nat.add_zero]
    by_cases hk : len - len % 4 = k
    · have c1 : len - len % 4 ≤ k ∧ k < len := by omega
      have c2 : (len % 4 = 1 ∨ len % 4 = 2) ∧ k = len - len % 4 := by omega
      have c3 : k / 4 = len / 4 := by omega
      rw [if_pos hk, if_pos (by omega), if_pos c1, read_u2, if_pos c2, c3]
    · rw [if_neg hk]
      by_cases hk1 : len - len % 4 + 1 = k
      · have c1 : len - len % 4 ≤ k ∧ k < len := by omega
        have c2 : ¬ ((len % 4 = 1 ∨ len % 4 = 2) ∧ k = len - len % 4) := by omega
        have c3 : k / 4 = len / 4 := by omega
        have c4 : k % 4 = 1 := by omega
        rw [if_pos hk1, if_pos (by omega), if_pos c1, read_u2, if_neg c2, c3, c4]
      · have c1 : ¬ (len - len % 4 ≤ k ∧ k < len) := by omega
        rw [if_neg hk1, if_neg c1]
  · have b1 : len &&& 1 = 1 := by rw [Nat.and_one_is_mod]; omega
    have b2 : len &&& 2 = 2 := by rw [and_2_eq]; omega
    have b3 : len &&& 3 = 3 := by rw [and_3_eq_mod]; omega
    simp +decide only [b1, b2, b3, if_true, if_false, pure, Except.pure, ok_bind]
    rw [store_ok _ _ _ (by omega), ok_bind,
      store_ok _ _ _ (by rw [List.length_set]; omega), ok_bind,
      store_ok _ _ _ (by rw [List.length_set, List.length_set]; omega)]
    refine ⟨_, rfl, ?_⟩
    intro k
    simp only [List.getElem?_set, List.length_set]
    have c2 : ¬ ((len % 4 = 1 ∨ len % 4 = 2) ∧ k = len - len % 4) := by omega
    by_cases hk2 : len - len % 4 + 2 = k
    · have c1 : len - len % 4 ≤ k ∧ k < len := by omega
      have c3 : k / 4 = len / 4 := by omega
      have c4 : k % 4 = 2 := by omega
      rw [if_pos hk2, if_pos (by omega), if_pos c1, read_u2, if_neg c2, c3, c4]
    · rw [if_neg hk2]
      by_cases hk1 : len - len % 4 + 1 = k
      · have c1 : len - len % 4 ≤ k ∧ k < len := by omega
        have c3 : k / 4 = len / 4 := by omega
        have c4 : k % 4 = 1 := by omega
        rw [if_pos hk1, if_pos (by omega), if_pos c1, read_u2, if_neg c2, c3, c4]
      · rw [if_neg hk1]
        by_cases hk : len - len % 4 = k
        · have c1 : len - len % 4 ≤ k ∧ k < len := by omega
          have c3 : k / 4 = len / 4 := by omega
          have c4 : k % 4 = 0 := by omega
          rw [if_pos hk, if_pos (by omega), if_pos c1, read_u2, if_neg c2, c3, c4]
          rfl
        · have c1 : ¬ (len - len % 4 ≤ k ∧ k < len) := by omega
          rw [if_neg hk, if_neg c1]

theorem dequant_uint2_run (inp : List ℕ) (out : List ℚ) (len : ℕ) (scale : ℚ) (zp : ℤ)
    (hs : 0 < scale) (hin : (len + 3) / 4 ≤ inp.length) (hout : len ≤ out.length) :
    ∃ out', neurobit_dequant_uint2_to_float (some inp) (some out) len scale zp = .ok out' ∧
      ∀ k, out'[k]? =
        if k < len then some (dequant_value (read_u2 inp len k) scale zp) else out[k]? := by
  obtain ⟨o1, hrun, hget⟩ := dequant_uint2_loop_spec inp len scale zp hin len 0 0 out
    (by omega) (by omega) (by omega) (by omega) hout
  have hlen1 : o1.length = out.length := by
    apply length_eq_of_isSome_eq
    intro k
    rw [hget k]
    by_cases h2 : 0 ≤ k ∧ k < len - len % 4
    · have h3 : k < out.length := by omega
      rw [if_pos h2, List.getElem?_eq_getElem h3]
      rfl
    · rw [if_neg h2]
  simp only [neurobit_dequant_uint2_to_float, if_pos hs, hrun, ok_bind, and_3_eq_mod]
  by_cases hr : len % 4 ≠ 0
  · obtain ⟨o2, hrun2, hget2⟩ := dequant_uint2_tail_spec inp len scale zp o1 hin
      (by omega) hr
    rw [if_pos hr, hrun2]
    refine ⟨o2, rfl, ?_⟩
    intro k
    rw [hget2 k]
    by_cases h1 : len - len % 4 ≤ k ∧ k < len
    · rw [if_pos h1, if_pos h1.2]
    · rw [if_neg h1, hget k]
      by_cases h2 : 0 ≤ k ∧ k < len - len % 4
      · have c2 : ¬ ((len % 4 = 1 ∨ len % 4 = 2) ∧ k = len - len % 4) := by omega
        rw [if_pos h2, if_pos (by omega), read_u2, if_neg c2]
      · rw [if_neg h2, if_neg (by omega)]
  · rw [if_neg hr]
    refine ⟨o1, rfl, ?_⟩
    intro k
    rw [hget k]
    by_cases h2 : 0 ≤ k ∧ k < len - len % 4
    · have c2 : ¬ ((len % 4 = 1 ∨ len % 4 = 2) ∧ k = len - len % 4) := by omega
      rw [if_pos h2, if_pos (by omega), read_u2, if_neg c2]
    · rw [if_neg h2, if_neg (by omega)]


/-! ## Extent of the accesses -/

theorem getD_take_of_lt {α : Type} (l : List α) (n i : ℕ) (d : α) (h : i < n) :
    (l.take n).getD i d = l.getD i d := by
  rw [List.getD_eq_getElem?_getD, List.getD_eq_getElem?_getD, List.getElem?_take, if_pos h]

theorem packed_u4_take (inp : List ℚ) (len : ℕ) (inv : ℚ) (zp : ℤ) (j : ℕ)
    (hj : j < (len + 1) / 2) :
    packed_u4 (inp.take len) len inv zp j = packed_u4 inp len inv zp j := by
  unfold packed_u4 pack_u4
  by_cases h : 2 * j + 1 < len
  · rw [if_pos h, if_pos h, getD_take_of_lt _ _ _ _ (by omega : 2 * j < len),
      getD_take_of_lt _ _ _ _ h]
  · rw [if_neg h, if_neg h, getD_take_of_lt _ _ _ _ (by omega : 2 * j < len)]

theorem packed_u2_take (inp : List ℚ) (len : ℕ) (inv : ℚ) (zp : ℤ) (j : ℕ)
    (hj : j < (len + 3) / 4) :
    packed_u2 (inp.take len) len inv zp j = packed_u2 inp len inv zp j := by
  unfold packed_u2 pack_u2
  by_cases h : 4 * j + 3 < len
  · rw [if_pos h, if_pos h, getD_take_of_lt _ _ _ _ (by omega : 4 * j < len),
      getD_take_of_lt _ _ _ _ (by omega : 4 * j + 1 < len),
      getD_take_of_lt _ _ _ _ (by omega : 4 * j + 2 < len), getD_take_of_lt _ _ _ _ h]
  · rw [if_neg h, if_neg h]
    have hr : len % 4 = 1 ∨ len % 4 = 2 ∨ len % 4 = 3 := by omega
    rcases hr with hr | hr | hr
    · rw [hr, getD_take_of_lt _ _ _ _ (by omega : 4 * j < len)]
      rfl
    · rw [hr, getD_take_of_lt _ _ _ _ (by omega : 4 * j < len),
        getD_take_of_lt _ _ _ _ (by omega : 4 * j + 1 < len)]
      rfl
    · rw [hr, getD_take_of_lt _ _ _ _ (by omega : 4 * j < len),
        getD_take_of_lt _ _ _ _ (by omega : 4 * j + 1 < len),
        getD_take_of_lt _ _ _ _ (by omega : 4 * j + 2 < len)]

/-- C11. Quantize output extent: for every `len`, `neurobit_quant_float_to_uint4` returns a
buffer of the same length in which exactly the bytes at indices `j < (len+1)/2` carry the
packed image of the samples (whatever they held before) and every byte at a higher index is
unchanged; likewise `neurobit_quant_float_to_uint2` with `(len+3)/4`.  No read of `in` is at
an index `>= len`: the call gives the same result on the input cut to its first `len`
elements, where any such read would fault.  For `len = 0` the output buffer is returned as
it was. -/
theorem quant_output_extent (inp : List ℚ) (out : List ℕ) (len : ℕ) (scale : ℚ)
    (zero_point : ℤ) (hscale : 0 < scale) (hin : len ≤ inp.length) :
    ((len + 1) / 2 ≤ out.length →
      ∃ out', neurobit_quant_float_to_uint4 (some inp) (some out) len scale zero_point
          = .ok out' ∧
        out'.length = out.length ∧
        (∀ j, j < (len + 1) / 2 →
          out'[j]? = some (packed_u4 inp len (1 / scale) zero_point j)) ∧
        (∀ j, (len + 1) / 2 ≤ j → out'[j]? = out[j]?) ∧
        neurobit_quant_float_to_uint4 (some (inp.take len)) (some out) len scale zero_point
          = .ok out' ∧
        (len = 0 → out' = out)) ∧
    ((len + 3) / 4 ≤ out.length →
      ∃ out', neurobit_quant_float_to_uint2 (some inp) (some out) len scale zero_point
          = .ok out' ∧
        out'.length = out.length ∧
        (∀ j, j < (len + 3) / 4 →
          out'[j]? = some (packed_u2 inp len (1 / scale) zero_point j)) ∧
        (∀ j, (len + 3) / 4 ≤ j → out'[j]? = out[j]?) ∧
        neurobit_quant_float_to_uint2 (some (inp.take len)) (some out) len scale zero_point
          = .ok out' ∧
        (len = 0 → out' = out)) := by
  have htake : len ≤ (inp.take len).length := by
    rw [List.length_take]; omega
  constructor
  · intro hout
    obtain ⟨out', hrun, hget⟩ := quant_uint4_run inp out len scale zero_point hscale hin hout
    obtain ⟨o2, hrun2, hget2⟩ := quant_uint4_run (inp.take len) out len scale zero_point
      hscale htake hout
    have hlen : out'.length = out.length := by
      apply length_eq_of_isSome_eq
      intro j
      rw [hget j]
      by_cases h : j < (len + 1) / 2
      · rw [if_pos h, List.getElem?_eq_getElem (by omega : j < out.length)]
        rfl
      · rw [if_neg h]
    refine ⟨out', hrun, hlen, ?_, ?_, ?_, ?_⟩
    · intro j hj
      rw [hget j, if_pos hj]
    · intro j hj
      rw [hget j, if_neg (by omega)]
    · rw [hrun2]
      congr 1
      apply List.ext_getElem?
      intro j
      rw [hget j, hget2 j]
      by_cases h : j < (len + 1) / 2
      · rw [if_pos h, if_pos h, packed_u4_take _ _ _ _ _ h]
      · rw [if_neg h, if_neg h]
    · intro h0
      apply List.ext_getElem?
      intro j
      rw [hget j, if_neg (by omega)]
  · intro hout
    obtain ⟨out', hrun, hget⟩ := quant_uint2_run inp out len scale zero_point hscale hin hout
    obtain ⟨o2, hrun2, hget2⟩ := quant_uint2_run (inp.take len) out len scale zero_point
      hscale htake hout
    have hlen : out'.length = out.length := by
      apply length_eq_of_isSome_eq
      intro j
      rw [hget j]
      by_cases h : j < (len + 3) / 4
      · rw [if_pos h, List.getElem?_eq_getElem (by omega : j < out.length)]
        rfl
      · rw [if_neg h]
    refine ⟨out', hrun, hlen, ?_, ?_, ?_, ?_⟩
    · intro j hj
      rw [hget j, if_pos hj]
    · intro j hj
      rw [hget j, if_neg (by omega)]
    · rw [hrun2]
      congr 1
      apply List.ext_getElem?
      intro j
      rw [hget j, hget2 j]
      by_cases h : j < (len + 3) / 4
      · rw [if_pos h, if_pos h, packed_u2_take _ _ _ _ _ h]
      · rw [if_neg h, if_neg h]
    · intro h0
      apply List.ext_getElem?
      intro j
      rw [hget j, if_neg (by omega)]

/-- Witness for C11: the seven samples of the test written into a buffer of six bytes that
held `255` everywhere. -/
theorem quant_output_extent_witness :
    (∃ out', neurobit_quant_float_to_uint4 (some test_input)
          (some [255, 255, 255, 255, 255, 255]) 7 test_scale test_zp = .ok out' ∧
        out'.length = 6 ∧ out'[4]? = some 255 ∧ out'[5]? = some 255 ∧
        neurobit_quant_float_to_uint4 (some (test_input.take 7))
          (some [255, 255, 255, 255, 255, 255]) 7 test_scale test_zp = .ok out') ∧
    (∃ out', neurobit_quant_float_to_uint2 (some test_input)
          (some [255, 255, 255, 255, 255, 255]) 7 test_scale test_zp = .ok out' ∧
        out'.length = 6 ∧ out'[2]? = some 255 ∧ out'[5]? = some 255) := by
  have h := quant_output_extent test_input [255, 255, 255, 255, 255, 255] 7 test_scale test_zp
    (by norm_num [test_scale]) (by simp [test_input])
  obtain ⟨o4, r4, l4, _, f4, t4, _⟩ := h.1 (by simp)
  obtain ⟨o2, r2, l2, _, f2, _, _⟩ := h.2 (by simp)
  exact ⟨⟨o4, r4, l4, f4 4 (by omega), f4 5 (by omega), t4⟩,
    ⟨o2, r2, l2, f2 2 (by omega), f2 5 (by omega)⟩⟩


/-- C12. Dequantize stays in bounds: for either width and every `len`, given a packed buffer
of (at least) `(len+1)/2` resp. `(len+3)/4` bytes and an output array of (at least) `len`
floats, the call returns without a bounds fault; every `out[k]` with `k < len` is written
(its final value is the decoder's value, whatever the array held before), the output array
keeps its length and every element at an index `>= len` is unchanged. -/
theorem dequant_in_bounds (inp4 inp2 : List ℕ) (out : List ℚ) (len : ℕ) (scale : ℚ)
    (zero_point : ℤ) (hscale : 0 < scale) (hout : len ≤ out.length) :
    ((len + 1) / 2 ≤ inp4.length →
      ∃ out', neurobit_dequant_uint4_to_float (some inp4) (some out) len scale zero_point
          = .ok out' ∧
        out'.length = out.length ∧
        (∀ k, k < len → out'[k]? = some (dequant_value (read_u4 inp4 k) scale zero_point)) ∧
        (∀ k, len ≤ k → out'[k]? = out[k]?)) ∧
    ((len + 3) / 4 ≤ inp2.length →
      ∃ out', neurobit_dequant_uint2_to_float (some inp2) (some out) len scale zero_point
          = .ok out' ∧
        out'.length = out.length ∧
        (∀ k, k < len →
          out'[k]? = some (dequant_value (read_u2 inp2 len k) scale zero_point)) ∧
        (∀ k, len ≤ k → out'[k]? = out[k]?)) := by
  constructor
  · intro hin
    obtain ⟨out', hrun, hget⟩ := dequant_uint4_run inp4 out len scale zero_point hscale hin
      hout
    refine ⟨out', hrun, ?_, ?_, ?_⟩
    · apply length_eq_of_isSome_eq
      intro k
      rw [hget k]
      by_cases h : k < len
      · rw [if_pos h, List.getElem?_eq_getElem (by omega : k < out.length)]
        rfl
      · rw [if_neg h]
    · intro k hk
      rw [hget k, if_pos hk]
    · intro k hk
      rw [hget k, if_neg (by omega)]
  · intro hin
    obtain ⟨out', hrun, hget⟩ := dequant_uint2_run inp2 out len scale zero_point hscale hin
      hout
    refine ⟨out', hrun, ?_, ?_, ?_⟩
    · apply length_eq_of_isSome_eq
      intro k
      rw [hget k]
      by_cases h : k < len
      · rw [if_pos h, List.getElem?_eq_getElem (by omega : k < out.length)]
        rfl
      · rw [if_neg h]
    · intro k hk
      rw [hget k, if_pos hk]
    · intro k hk
      rw [hget k, if_neg (by omega)]

/-- Witness for C12: buffers of exactly the required sizes for `len = 7` (four bytes for the
4-bit decoder, two for the 2-bit decoder, seven floats). -/
theorem dequant_in_bounds_witness :
    (∃ out', neurobit_dequant_uint4_to_float (some [46, 214, 61, 2])
        (some [0, 0, 0, 0, 0, 0, 0]) 7 test_scale test_zp = .ok out' ∧ out'.length = 7) ∧
    (∃ out', neurobit_dequant_uint2_to_float (some [228, 57])
        (some [0, 0, 0, 0, 0, 0, 0]) 7 test_scale test_zp = .ok out' ∧ out'.length = 7) := by
  have h := dequant_in_bounds [46, 214, 61, 2] [228, 57] [0, 0, 0, 0, 0, 0, 0] 7 test_scale
    test_zp (by norm_num [test_scale]) (by simp)
  obtain ⟨o4, r4, l4, _, _⟩ := h.1 (by simp)
  obtain ⟨o2, r2, l2, _, _⟩ := h.2 (by simp)
  exact ⟨⟨o4, r4, l4⟩, ⟨o2, r2, l2⟩⟩


/-! ## The precondition check -/

theorem load_ne_assertion {α : Type} (buf : List α) (i : ℕ) :
    load buf i ≠ .error .assertion := by
  unfold load
  split <;> simp

theorem store_ne_assertion {α : Type} (buf : List α) (i : ℕ) (v : α) :
    store buf i v ≠ .error .assertion := by
  unfold store
  split <;> simp

theorem bind_ne_assertion {α β : Type} (x : Except Fault α) (f : α → Except Fault β)
    (hx : x ≠ .error .assertion) (hf : ∀ a, f a ≠ .error .assertion) :
    (x >>= f) ≠ .error .assertion := by
  cases x with
  | error e => simpa [bind, Except.bind] using hx
  | ok a => exact hf a

theorem quant_uint4_loop_ne_assertion (inp : List ℚ) (len : ℕ) (inv : ℚ) (zp : ℤ) :
    ∀ (fuel i : ℕ) (out : List ℕ),
      quant_uint4_loop inp len inv zp fuel i out ≠ .error .assertion := by
  intro fuel
  induction fuel with
  | zero =>
    intro i out
    unfold quant_uint4_loop
    split <;> simp
  | succ fuel ih =>
    intro i out
    unfold quant_uint4_loop
    split
    · refine bind_ne_assertion _ _ (load_ne_assertion _ _) (fun x0 => ?_)
      refine bind_ne_assertion _ _ (load_ne_assertion _ _) (fun x1 => ?_)
      exact bind_ne_assertion _ _ (store_ne_assertion _ _ _) (fun o => ih _ _)
    · simp

theorem dequant_uint4_loop_ne_assertion (inp : List ℕ) (len : ℕ) (scale : ℚ) (zp : ℤ) :
    ∀ (fuel i j : ℕ) (out : List ℚ),
      dequant_uint4_loop inp len scale zp fuel i j out ≠ .error .assertion := by
  intro fuel
  induction fuel with
  | zero =>
    intro i j out
    unfold dequant_uint4_loop
    split <;> simp
  | succ fuel ih =>
    intro i j out
    unfold dequant_uint4_loop
    split
    · refine bind_ne_assertion _ _ (load_ne_assertion _ _) (fun p => ?_)
      refine bind_ne_assertion _ _ (store_ne_assertion _ _ _) (fun o1 => ?_)
      exact bind_ne_assertion _ _ (store_ne_assertion _ _ _) (fun o2 => ih _ _ _)
    · simp

theorem quant_uint2_loop_ne_assertion (inp : List ℚ) (len : ℕ) (inv : ℚ) (zp : ℤ) :
    ∀ (fuel i : ℕ) (out : List ℕ),
      quant_uint2_loop inp len inv zp fuel i out ≠ .error .assertion := by
  intro fuel
  induction fuel with
  | zero =>
    intro i out
    unfold quant_uint2_loop
    split <;> simp
  | succ fuel ih =>
    intro i out
    unfold quant_uint2_loop
    split
    · refine bind_ne_assertion _ _ (load_ne_assertion _ _) (fun x0 => ?_)
      refine bind_ne_assertion _ _ (load_ne_assertion _ _) (fun x1 => ?_)
      refine bind_ne_assertion _ _ (load_ne_assertion _ _) (fun x2 => ?_)
      refine bind_ne_assertion _ _ (load_ne_assertion _ _) (fun x3 => ?_)
      exact bind_ne_assertion _ _ (store_ne_assertion _ _ _) (fun o => ih _ _)
    · simp

theorem dequant_uint2_loop_ne_assertion (inp : List ℕ) (len : ℕ) (scale : ℚ) (zp : ℤ) :
    ∀ (fuel i j : ℕ) (out : List ℚ),
      dequant_uint2_loop inp len scale zp fuel i j out ≠ .error .assertion := by
  intro fuel
  induction fuel with
  | zero =>
    intro i j out
    unfold dequant_uint2_loop
    split <;> simp
  | succ fuel ih =>
    intro i j out
    unfold dequant_uint2_loop
    split
    · refine bind_ne_assertion _ _ (load_ne_assertion _ _) (fun p => ?_)
      refine bind_ne_assertion _ _ (store_ne_assertion _ _ _) (fun o1 => ?_)
      refine bind_ne_assertion _ _ (store_ne_assertion _ _ _) (fun o2 => ?_)
      refine bind_ne_assertion _ _ (store_ne_assertion _ _ _) (fun o3 => ?_)
      exact bind_ne_assertion _ _ (store_ne_assertion _ _ _) (fun o4 => ih _ _ _)
    · simp

theorem pure_ne_assertion {α : Type} (a : α) :
    (pure a : Except Fault α) ≠ .error .assertion := by
  simp [pure, Except.pure]

theorem ite_ne_assertion {α : Type} {c : Prop} [Decidable c] {x y : Except Fault α}
    (hx : x ≠ .error .assertion) (hy : y ≠ .error .assertion) :
    (if c then x else y) ≠ .error .assertion := by
  split
  · exact hx
  · exact hy

theorem quant_uint2_tail_ne_assertion (inp : List ℚ) (len : ℕ) (inv : ℚ) (zp : ℤ) (i : ℕ) :
    quant_uint2_tail inp len inv zp i ≠ .error .assertion := by
  unfold quant_uint2_tail
  dsimp only
  refine ite_ne_assertion
    (bind_ne_assertion _ _ (load_ne_assertion _ _)
      (fun x => bind_ne_assertion _ _ (pure_ne_assertion _) (fun q => ?_)))
    (bind_ne_assertion _ _ (pure_ne_assertion _) (fun q => ?_))
  all_goals
    refine ite_ne_assertion
      (bind_ne_assertion _ _ (load_ne_assertion _ _)
        (fun x => bind_ne_assertion _ _ (pure_ne_assertion _) (fun q => ?_)))
      (bind_ne_assertion _ _ (pure_ne_assertion _) (fun q => ?_))
  all_goals
    refine ite_ne_assertion
      (bind_ne_assertion _ _ (load_ne_assertion _ _)
        (fun x => bind_ne_assertion _ _ (pure_ne_assertion _) (fun q => ?_)))
      (bind_ne_assertion _ _ (pure_ne_assertion _) (fun q => ?_))
  all_goals exact pure_ne_assertion _

theorem dequant_uint2_tail_ne_assertion (inp : List ℕ) (len : ℕ) (scale : ℚ) (zp : ℤ)
    (i : ℕ) (out : List ℚ) :
    dequant_uint2_tail inp len scale zp i out ≠ .error .assertion := by
  unfold dequant_uint2_tail
  refine bind_ne_assertion _ _ (load_ne_assertion _ _) (fun p => ?_)
  dsimp only
  refine ite_ne_assertion
    (bind_ne_assertion _ _ (store_ne_assertion _ _ _) (fun q => ?_))
    (bind_ne_assertion _ _ (pure_ne_assertion _) (fun q => ?_))
  all_goals
    refine ite_ne_assertion
      (bind_ne_assertion _ _ (store_ne_assertion _ _ _) (fun q => ?_))
      (bind_ne_assertion _ _ (pure_ne_assertion _) (fun q => ?_))
  all_goals
    refine ite_ne_assertion
      (bind_ne_assertion _ _ (store_ne_assertion _ _ _) (fun q => ?_))
      (bind_ne_assertion _ _ (pure_ne_assertion _) (fun q => ?_))
  all_goals exact pure_ne_assertion _

theorem quant_uint4_assert_iff (inp : Option (List ℚ)) (out : Option (List ℕ)) (len : ℕ)
    (scale : ℚ) (zp : ℤ) :
    neurobit_quant_float_to_uint4 inp out len scale zp = .error .assertion ↔
      inp = none ∨ out = none ∨ ¬ 0 < scale := by
  constructor
  · intro h
    cases inp with
    | none => exact Or.inl rfl
    | some a =>
      cases out with
      | none => exact Or.inr (Or.inl rfl)
      | some b =>
        refine Or.inr (Or.inr ?_)
        intro hs
        simp only [neurobit_quant_float_to_uint4, if_pos hs] at h
        revert h
        refine bind_ne_assertion _ _ (quant_uint4_loop_ne_assertion _ _ _ _ _ _ _) ?_
        rintro ⟨i, o⟩
        exact ite_ne_assertion
          (bind_ne_assertion _ _ (load_ne_assertion _ _) (fun x => store_ne_assertion _ _ _))
          (by simp)
  · rintro (h | h | h)
    · subst h; rfl
    · subst h; cases inp <;> rfl
    · cases inp with
      | none => rfl
      | some a =>
        cases out with
        | none => rfl
        | some b => simp only [neurobit_quant_float_to_uint4, if_neg h]

theorem dequant_uint4_assert_iff (inp : Option (List ℕ)) (out : Option (List ℚ)) (len : ℕ)
    (scale : ℚ) (zp : ℤ) :
    neurobit_dequant_uint4_to_float inp out len scale zp = .error .assertion ↔
      inp = none ∨ out = none ∨ ¬ 0 < scale := by
  constructor
  · intro h
    cases inp with
    | none => exact Or.inl rfl
    | some a =>
      cases out with
      | none => exact Or.inr (Or.inl rfl)
      | some b =>
        refine Or.inr (Or.inr ?_)
        intro hs
        simp only [neurobit_dequant_uint4_to_float, if_pos hs] at h
        revert h
        refine bind_ne_assertion _ _ (dequant_uint4_loop_ne_assertion _ _ _ _ _ _ _ _) ?_
        rintro ⟨i, j, o⟩
        exact ite_ne_assertion
          (bind_ne_assertion _ _ (load_ne_assertion _ _) (fun x => store_ne_assertion _ _ _))
          (by simp)
  · rintro (h | h | h)
    · subst h; rfl
    · subst h; cases inp <;> rfl
    · cases inp with
      | none => rfl
      | some a =>
        cases out with
        | none => rfl
        | some b => simp only [neurobit_dequant_uint4_to_float, if_neg h]

theorem quant_uint2_assert_iff (inp : Option (List ℚ)) (out : Option (List ℕ)) (len : ℕ)
    (scale : ℚ) (zp : ℤ) :
    neurobit_quant_float_to_uint2 inp out len scale zp = .error .assertion ↔
      inp = none ∨ out = none ∨ ¬ 0 < scale := by
  constructor
  · intro h
    cases inp with
    | none => exact Or.inl rfl
    | some a =>
      cases out with
      | none => exact Or.inr (Or.inl rfl)
      | some b =>
        refine Or.inr (Or.inr ?_)
        intro hs
        simp only [neurobit_quant_float_to_uint2, if_pos hs] at h
        revert h
        refine bind_ne_assertion _ _ (quant_uint2_loop_ne_assertion _ _ _ _ _ _ _) ?_
        rintro ⟨i, o⟩
        exact ite_ne_assertion
          (bind_ne_assertion _ _ (quant_uint2_tail_ne_assertion _ _ _ _ _)
            (fun x => store_ne_assertion _ _ _))
          (by simp)
  · rintro (h | h | h)
    · subst h; rfl
    · subst h; cases inp <;> rfl
    · cases inp with
      | none => rfl
      | some a =>
        cases out with
        | none => rfl
        | some b => simp only [neurobit_quant_float_to_uint2, if_neg h]

theorem dequant_uint2_assert_iff (inp : Option (List ℕ)) (out : Option (List ℚ)) (len : ℕ)
    (scale : ℚ) (zp : ℤ) :
    neurobit_dequant_uint2_to_float inp out len scale zp = .error .assertion ↔
      inp = none ∨ out = none ∨ ¬ 0 < scale := by
  constructor
  · intro h
    cases inp with
    | none => exact Or.inl rfl
    | some a =>
      cases out with
      | none => exact Or.inr (Or.inl rfl)
      | some b =>
        refine Or.inr (Or.inr ?_)
        intro hs
        simp only [neurobit_dequant_uint2_to_float, if_pos hs] at h
        revert h
        refine bind_ne_assertion _ _ (dequant_uint2_loop_ne_assertion _ _ _ _ _ _ _ _) ?_
        rintro ⟨i, j, o⟩
        exact ite_ne_assertion (dequant_uint2_tail_ne_assertion _ _ _ _ _ _) (by simp)
  · rintro (h | h | h)
    · subst h; rfl
    · subst h; cases inp <;> rfl
    · cases inp with
      | none => rfl
      | some a =>
        cases out with
        | none => rfl
        | some b => simp only [neurobit_dequant_uint2_to_float, if_neg h]

/-- C13. The precondition check is fail-fast and atomic: each of the four operations ends
with the assertion failure if and only if a buffer pointer is null or `scale <= 0`; this
holds for every `len` and every buffer size, so the failure is raised before any element is
read or written (an access would have been checked first and a failed call returns no
modified buffer).  Whenever the check passes and the buffers have the documented sizes, the
call completes and returns the full result. -/
theorem precondition_check (fin : Option (List ℚ)) (bout : Option (List ℕ))
    (bin : Option (List ℕ)) (fout : Option (List ℚ)) (len : ℕ) (scale : ℚ)
    (zero_point : ℤ) :
    (neurobit_quant_float_to_uint4 fin bout len scale zero_point = .error .assertion ↔
      fin = none ∨ bout = none ∨ scale ≤ 0) ∧
    (neurobit_dequant_uint4_to_float bin fout len scale zero_point = .error .assertion ↔
      bin = none ∨ fout = none ∨ scale ≤ 0) ∧
    (neurobit_quant_float_to_uint2 fin bout len scale zero_point = .error .assertion ↔
      fin = none ∨ bout = none ∨ scale ≤ 0) ∧
    (neurobit_dequant_uint2_to_float bin fout len scale zero_point = .error .assertion ↔
      bin = none ∨ fout = none ∨ scale ≤ 0) ∧
    (∀ a b, fin = some a → bout = some b → 0 < scale → len ≤ a.length →
      (len + 1) / 2 ≤ b.length →
      ∃ res, neurobit_quant_float_to_uint4 fin bout len scale zero_point = .ok res ∧
        ∀ j, j < (len + 1) / 2 →
          res[j]? = some (packed_u4 a len (1 / scale) zero_point j)) ∧
    (∀ a b, bin = some a → fout = some b → 0 < scale → (len + 1) / 2 ≤ a.length →
      len ≤ b.length →
      ∃ res, neurobit_dequant_uint4_to_float bin fout len scale zero_point = .ok res ∧
        ∀ k, k < len → res[k]? = some (dequant_value (read_u4 a k) scale zero_point)) ∧
    (∀ a b, fin = some a → bout = some b → 0 < scale → len ≤ a.length →
      (len + 3) / 4 ≤ b.length →
      ∃ res, neurobit_quant_float_to_uint2 fin bout len scale zero_point = .ok res ∧
        ∀ j, j < (len + 3) / 4 →
          res[j]? = some (packed_u2 a len (1 / scale) zero_point j)) ∧
    (∀ a b, bin = some a → fout = some b → 0 < scale → (len + 3) / 4 ≤ a.length →
      len ≤ b.length →
      ∃ res, neurobit_dequant_uint2_to_float bin fout len scale zero_point = .ok res ∧
        ∀ k, k < len →
          res[k]? = some (dequant_value (read_u2 a len k) scale zero_point)) := by
  refine ⟨?_, ?_, ?_, ?_, ?_, ?_, ?_, ?_⟩
  · rw [quant_uint4_assert_iff, not_lt]
  · rw [dequant_uint4_assert_iff, not_lt]
  · rw [quant_uint2_assert_iff, not_lt]
  · rw [dequant_uint2_assert_iff, not_lt]
  · intro a b ha hb hs hin hout
    subst ha hb
    obtain ⟨res, hrun, hget⟩ := quant_uint4_run a b len scale zero_point hs hin hout
    refine ⟨res, hrun, ?_⟩
    intro j hj
    rw [hget j, if_pos hj]
  · intro a b ha hb hs hin hout
    subst ha hb
    obtain ⟨res, hrun, hget⟩ := dequant_uint4_run a b len scale zero_point hs hin hout
    refine ⟨res, hrun, ?_⟩
    intro k hk
    rw [hget k, if_pos hk]
  · intro a b ha hb hs hin hout
    subst ha hb
    obtain ⟨res, hrun, hget⟩ := quant_uint2_run a b len scale zero_point hs hin hout
    refine ⟨res, hrun, ?_⟩
    intro j hj
    rw [hget j, if_pos hj]
  · intro a b ha hb hs hin hout
    subst ha hb
    obtain ⟨res, hrun, hget⟩ := dequant_uint2_run a b len scale zero_point hs hin hout
    refine ⟨res, hrun, ?_⟩
    intro k hk
    rw [hget k, if_pos hk]

/-- Witness for C13: a null input pointer and a zero scale fail the check even with empty
buffers and `len = 7`; the test's call passes it and completes. -/
theorem precondition_check_witness :
    neurobit_quant_float_to_uint4 none (some []) 7 test_scale test_zp = .error .assertion ∧
    neurobit_dequant_uint2_to_float (some []) (some []) 7 0 test_zp = .error .assertion ∧
    (∃ res, neurobit_quant_float_to_uint4 (some test_input) (some [0, 0, 0, 0]) 7 test_scale
      test_zp = .ok res) := by
  refine ⟨?_, ?_, ?_⟩
  · exact (precondition_check none (some []) (some []) (some []) 7 test_scale test_zp).1.2
      (Or.inl rfl)
  · exact (precondition_check none (some []) (some []) (some []) 7 0 test_zp).2.2.2.1.2
      (Or.inr (Or.inr (le_refl 0)))
  · obtain ⟨res, hrun, _⟩ :=
      (precondition_check (some test_input) (some [0, 0, 0, 0]) none none 7 test_scale
        test_zp).2.2.2.2.1 test_input [0, 0, 0, 0] rfl rfl (by norm_num [test_scale])
        (by simp [test_input]) (by simp)
    exact ⟨res, hrun⟩


/-! ## Unused bits, rounding and the decoder's subtraction -/

/-- C14 (the code departs from the claim). With `len = 1` (`r = 1`) the one-byte buffers
`[0]` and `[16]` agree on the bits below offset `2r = 2` and differ only in bit 4, yet
`neurobit_dequant_uint2_to_float` decodes them to `[0]` and `[1]`; with `len = 2` the
buffers `[0]` and `[48]` agree below offset 4 and decode to `[0, 0]` and `[3, 0]`. -/
theorem dequant_uint2_depends_on_unused_bits :
    (0 : ℕ) % 4 ^ 1 = 16 % 4 ^ 1 ∧
      neurobit_dequant_uint2_to_float (some [0]) (some [0]) 1 1 0 = .ok [0] ∧
      neurobit_dequant_uint2_to_float (some [16]) (some [0]) 1 1 0 = .ok [1] ∧
      (0 : ℕ) % 4 ^ 2 = 48 % 4 ^ 2 ∧
      neurobit_dequant_uint2_to_float (some [0]) (some [0, 0]) 2 1 0 = .ok [0, 0] ∧
      neurobit_dequant_uint2_to_float (some [48]) (some [0, 0]) 2 1 0 = .ok [3, 0] := by
  refine ⟨by decide, ?_, ?_, by decide, ?_, ?_⟩ <;> with_unfolding_all rfl

theorem roundf_half_pos (n : ℕ) : roundf ((n : ℚ) + 1 / 2) = (n : ℤ) + 1 := by
  have h0 : (0 : ℚ) ≤ (n : ℚ) + 1 / 2 := by positivity
  unfold roundf
  rw [if_pos h0]
  have e : (n : ℚ) + 1 / 2 + 1 / 2 = (((n : ℤ) + 1 : ℤ) : ℚ) := by
    push_cast; ring
  rw [e, Int.floor_intCast]

theorem roundf_half_neg (n : ℕ) : roundf (-((n : ℚ) + 1 / 2)) = -((n : ℤ) + 1) := by
  have h0 : ¬ ((0 : ℚ) ≤ -((n : ℚ) + 1 / 2)) := by
    have : (0 : ℚ) < (n : ℚ) + 1 / 2 := by positivity
    linarith
  unfold roundf
  rw [if_neg h0]
  have e : -(-((n : ℚ) + 1 / 2)) + 1 / 2 = (((n : ℤ) + 1 : ℤ) : ℚ) := by
    push_cast; ring
  rw [e, Int.floor_intCast]

/-- C15. Rounding is half-away-from-zero: in exact arithmetic, for every `scale > 0`,
`zero_point` and integer `n >= 0`, the quotient of the sample `(n + 1/2) * scale` is rounded
to `n + 1` and that of `-(n + 1/2) * scale` to `-(n + 1)`, and this rounded quotient is what
the encoders convert to `int32_t`, add to the zero point and clamp (both widths). -/
theorem rounding_half_away_from_zero (scale : ℚ) (zero_point : ℤ) (n : ℕ)
    (hscale : 0 < scale) :
    roundf (((n : ℚ) + 1 / 2) * scale * (1 / scale)) = (n : ℤ) + 1 ∧
    roundf (-((n : ℚ) + 1 / 2) * scale * (1 / scale)) = -((n : ℤ) + 1) ∧
    code_u4 zero_point (1 / scale) (((n : ℚ) + 1 / 2) * scale)
      = sat_u4 (wrap32 (zero_point + wrap32 ((n : ℤ) + 1))) ∧
    code_u4 zero_point (1 / scale) (-((n : ℚ) + 1 / 2) * scale)
      = sat_u4 (wrap32 (zero_point + wrap32 (-((n : ℤ) + 1)))) ∧
    code_u2 zero_point (1 / scale) (((n : ℚ) + 1 / 2) * scale)
      = sat_u2 (wrap32 (zero_point + wrap32 ((n : ℤ) + 1))) ∧
    code_u2 zero_point (1 / scale) (-((n : ℚ) + 1 / 2) * scale)
      = sat_u2 (wrap32 (zero_point + wrap32 (-((n : ℤ) + 1)))) := by
  have hne : scale ≠ 0 := ne_of_gt hscale
  have e1 : ((n : ℚ) + 1 / 2) * scale * (1 / scale) = (n : ℚ) + 1 / 2 := by
    field_simp
    ring
  have e2 : -((n : ℚ) + 1 / 2) * scale * (1 / scale) = -((n : ℚ) + 1 / 2) := by
    field_simp
    ring
  have r1 := roundf_half_pos n
  have r2 := roundf_half_neg n
  refine ⟨?_, ?_, ?_, ?_, ?_, ?_⟩
  · rw [e1, r1]
  · rw [e2, r2]
  · rw [code_u4, e1, r1]
  · rw [code_u4, e2, r2]
  · rw [code_u2, e1, r1]
  · rw [code_u2, e2, r2]

/-- Witness for C15: the examples of the claim, 4-bit, scale 1, zero point 8: the samples
`0.5, -0.5, 2.5, -2.5` get the codes `9, 7, 11, 5`, packed as `9 | 7 << 4` and `11 | 5 << 4`. -/
theorem rounding_half_away_from_zero_witness :
    code_u4 8 (1 / 1) (((0 : ℕ) + 1 / 2) * 1) = 9 ∧
    code_u4 8 (1 / 1) (-((0 : ℕ) + 1 / 2) * 1) = 7 ∧
    code_u4 8 (1 / 1) (((2 : ℕ) + 1 / 2) * 1) = 11 ∧
    code_u4 8 (1 / 1) (-((2 : ℕ) + 1 / 2) * 1) = 5 ∧
    neurobit_quant_float_to_uint4 (some [1 / 2, -1 / 2, 5 / 2, -5 / 2]) (some [0, 0]) 4 1 8
      = .ok [121, 91] := by
  have h0 := rounding_half_away_from_zero 1 8 0 (by norm_num)
  have h2 := rounding_half_away_from_zero 1 8 2 (by norm_num)
  refine ⟨?_, ?_, ?_, ?_, ?_⟩
  · rw [h0.2.2.1]; decide
  · rw [h0.2.2.2.1]; decide
  · rw [h2.2.2.1]; decide
  · rw [h2.2.2.2.1]; decide
  · with_unfolding_all rfl

/-- C16 (as amended). The decoder's integer difference is the mathematical one whenever it
fits in `int32_t`: for either width, every code `c` in `[0, 15]` and every `int32_t`
`zero_point` with `zero_point > INT32_MIN + c`, the `int32_t` subtraction `c - zero_point`
(modulo `2^32`) equals the integer `c - zero_point`, and the decoded value is
`(c - zero_point) * scale`. -/
theorem dequant_difference_exact (c : ℕ) (scale : ℚ) (zero_point : ℤ) (hc : c ≤ 15)
    (hzp : isInt32 zero_point) (hlo : -2147483648 + (c : ℤ) < zero_point) :
    wrap32 ((c : ℤ) - zero_point) = (c : ℤ) - zero_point ∧
      dequant_value c scale zero_point = (((c : ℤ) - zero_point : ℤ) : ℚ) * scale := by
  have h : isInt32 ((c : ℤ) - zero_point) := by
    unfold isInt32 at hzp ⊢
    omega
  exact ⟨wrap32_of_isInt32 h, dequant_value_eq c scale zero_point h⟩

/-- Witness for C16 (as amended): code 15 with the smallest admissible zero point
`INT32_MIN + 16` and code 0 with `INT32_MAX`. -/
theorem dequant_difference_exact_witness :
    wrap32 (((15 : ℕ) : ℤ) - (-2147483632)) = ((15 : ℕ) : ℤ) - (-2147483632) ∧
      wrap32 (((0 : ℕ) : ℤ) - 2147483647) = ((0 : ℕ) : ℤ) - 2147483647 :=
  ⟨(dequant_difference_exact 15 1 (-2147483632) (by decide) (by decide) (by decide)).1,
    (dequant_difference_exact 0 1 2147483647 (by decide) (by decide) (by decide)).1⟩

/-- Counterexample to C16 as stated: for `zero_point = INT32_MIN` the difference
`c - zero_point` is at least `2^31` for every code, so the `int32_t` subtraction wraps: for
`c = 0` and `c = 3` it yields `-2^31` and `-2^31 + 3` where the integers are `2^31` and
`2^31 + 3`. -/
theorem dequant_difference_counterexample :
    isInt32 (-2147483648) ∧
      wrap32 (((0 : ℕ) : ℤ) - (-2147483648)) = -2147483648 ∧
      ((0 : ℕ) : ℤ) - (-2147483648) = 2147483648 ∧
      wrap32 (((3 : ℕ) : ℤ) - (-2147483648)) = -2147483645 ∧
      dequant_value 3 1 (-2147483648) ≠ ((((3 : ℕ) : ℤ) - (-2147483648) : ℤ) : ℚ) * 1 := by
  refine ⟨by decide, by decide, by decide, by decide, ?_⟩
  have e : dequant_value 3 1 (-2147483648) = -2147483645 := by
    with_unfolding_all rfl
  rw [e]
  norm_num


/-! ## Re-encoding decoded values -/

theorem roundf_intCast (z : ℤ) : roundf (z : ℚ) = z := by
  unfold roundf
  split_ifs with h
  · rw [Int.floor_eq_iff]
    constructor <;> linarith
  · have e : ⌊-(z : ℚ) + 1 / 2⌋ = -z := by
      rw [Int.floor_eq_iff]
      push_cast
      constructor <;> linarith
    rw [e, neg_neg]

theorem code_u4_dequant_value (c : ℕ) (scale : ℚ) (zp : ℤ) (hc : c ≤ 15) (hs : scale ≠ 0) :
    code_u4 zp (1 / scale) (dequant_value c scale zp) = c := by
  have e : dequant_value c scale zp * (1 / scale) = ((wrap32 ((c : ℤ) - zp) : ℤ) : ℚ) := by
    unfold dequant_value
    field_simp
  have h := sat_u4_eq (wrap32 (zp + wrap32 (wrap32 ((c : ℤ) - zp))))
  rw [code_u4, e, roundf_intCast]
  unfold wrap32 at h ⊢
  omega

theorem code_u2_dequant_value (c : ℕ) (scale : ℚ) (zp : ℤ) (hc : c ≤ 3) (hs : scale ≠ 0) :
    code_u2 zp (1 / scale) (dequant_value c scale zp) = c := by
  have e : dequant_value c scale zp * (1 / scale) = ((wrap32 ((c : ℤ) - zp) : ℤ) : ℚ) := by
    unfold dequant_value
    field_simp
  have h := sat_u2_eq (wrap32 (zp + wrap32 (wrap32 ((c : ℤ) - zp))))
  rw [code_u2, e, roundf_intCast]
  unfold wrap32 at h ⊢
  omega

set_option maxRecDepth 100000 in
theorem byte_u4_rebuild : ∀ p < 256,
    ((p &&& 15) ||| (((p >>> 4) % 256) <<< 4)) % 256 = p := by decide

set_option maxRecDepth 100000 in
theorem byte_u2_rebuild : ∀ p < 256,
    (((p >>> (2 * 0)) &&& 3) ||| (((p >>> (2 * 1)) &&& 3) <<< 2) |||
      (((p >>> (2 * 2)) &&& 3) <<< 4) ||| (((p >>> (2 * 3)) &&& 3) <<< 6)) % 256 = p := by
  decide

theorem read_u4_le (inp : List ℕ) (k : ℕ) (hb : ∀ p ∈ inp, p < 256) : read_u4 inp k ≤ 15 := by
  rw [read_u4_eq inp k (getD_lt_of_forall inp _ hb)]
  exact Nat.and_le_right

theorem read_u2_le (inp : List ℕ) (len k : ℕ) : read_u2 inp len k ≤ 3 := by
  unfold read_u2
  split_ifs <;> exact Nat.and_le_right

theorem getD_eq_of_getElem?_getD {α : Type} (l : List α) (i : ℕ) (d : α) (h : i < l.length) :
    l[i]? = some (l.getD i d) := by
  rw [List.getElem?_eq_getElem h, List.getD_eq_getElem l d h]

theorem requantize_uint4 (bytes : List ℕ) (fbuf : List ℚ) (obuf : List ℕ) (scale : ℚ)
    (zp : ℤ) (hscale : 0 < scale) (hbytes : ∀ p ∈ bytes, p < 256)
    (hf : 2 * bytes.length ≤ fbuf.length) (ho : obuf.length = bytes.length) :
    ∃ res, neurobit_dequant_uint4_to_float (some bytes) (some fbuf) (2 * bytes.length) scale zp
        = .ok res ∧
      neurobit_quant_float_to_uint4 (some res) (some obuf) (2 * bytes.length) scale zp
        = .ok bytes := by
  have hne : scale ≠ 0 := ne_of_gt hscale
  obtain ⟨res, hrun, hget⟩ := dequant_uint4_run bytes fbuf (2 * bytes.length) scale zp hscale
    (by omega) hf
  have hlen : res.length = fbuf.length := by
    apply length_eq_of_isSome_eq
    intro k
    rw [hget k]
    by_cases h : k < 2 * bytes.length
    · rw [if_pos h, List.getElem?_eq_getElem (by omega : k < fbuf.length)]
      rfl
    · rw [if_neg h]
  obtain ⟨out', hrun2, hget2⟩ := quant_uint4_run res obuf (2 * bytes.length) scale zp hscale
    (by omega) (by omega)
  refine ⟨res, hrun, ?_⟩
  rw [hrun2]
  congr 1
  apply List.ext_getElem?
  intro j
  rw [hget2 j]
  by_cases hj : j < (2 * bytes.length + 1) / 2
  · have hj' : j < bytes.length := by omega
    have g0 : res.getD (2 * j) 0 = dequant_value (read_u4 bytes (2 * j)) scale zp := by
      apply getD_of_getElem?
      rw [hget (2 * j), if_pos (by omega)]
    have g1 : res.getD (2 * j + 1) 0 = dequant_value (read_u4 bytes (2 * j + 1)) scale zp := by
      apply getD_of_getElem?
      rw [hget (2 * j + 1), if_pos (by omega)]
    have r0 : read_u4 bytes (2 * j) = bytes.getD j 0 &&& 15 := by
      have h1 : 2 * j % 2 = 0 := by omega
      have h2 : 2 * j / 2 = j := by omega
      rw [read_u4, if_pos h1, h2]
    have r1 : read_u4 bytes (2 * j + 1) = (bytes.getD j 0 >>> 4) % 256 := by
      have h1 : ¬ ((2 * j + 1) % 2 = 0) := by omega
      have h2 : (2 * j + 1) / 2 = j := by omega
      rw [read_u4, if_neg h1, h2]
    rw [if_pos hj, packed_u4, if_pos (by omega), pack_u4, g0, g1,
      code_u4_dequant_value _ _ _ (read_u4_le bytes _ hbytes) hne,
      code_u4_dequant_value _ _ _ (read_u4_le bytes _ hbytes) hne, r0, r1,
      byte_u4_rebuild _ (getD_lt_of_forall bytes j hbytes),
      getD_eq_of_getElem?_getD bytes j 0 hj']
  · rw [if_neg hj, List.getElem?_eq_none (by omega), List.getElem?_eq_none (by omega)]

theorem requantize_uint2 (bytes : List ℕ) (fbuf : List ℚ) (obuf : List ℕ) (scale : ℚ)
    (zp : ℤ) (hscale : 0 < scale) (hbytes : ∀ p ∈ bytes, p < 256)
    (hf : 4 * bytes.length ≤ fbuf.length) (ho : obuf.length = bytes.length) :
    ∃ res, neurobit_dequant_uint2_to_float (some bytes) (some fbuf) (4 * bytes.length) scale zp
        = .ok res ∧
      neurobit_quant_float_to_uint2 (some res) (some obuf) (4 * bytes.length) scale zp
        = .ok bytes := by
  have hne : scale ≠ 0 := ne_of_gt hscale
  obtain ⟨res, hrun, hget⟩ := dequant_uint2_run bytes fbuf (4 * bytes.length) scale zp hscale
    (by omega) hf
  have hlen : res.length = fbuf.length := by
    apply length_eq_of_isSome_eq
    intro k
    rw [hget k]
    by_cases h : k < 4 * bytes.length
    · rw [if_pos h, List.getElem?_eq_getElem (by omega : k < fbuf.length)]
      rfl
    · rw [if_neg h]
  obtain ⟨out', hrun2, hget2⟩ := quant_uint2_run res obuf (4 * bytes.length) scale zp hscale
    (by omega) (by omega)
  refine ⟨res, hrun, ?_⟩
  rw [hrun2]
  congr 1
  apply List.ext_getElem?
  intro j
  rw [hget2 j]
  by_cases hj : j < (4 * bytes.length + 3) / 4
  · have hj' : j < bytes.length := by omega
    have hrd : ∀ t, t < 4 → res.getD (4 * j + t) 0 =
        dequant_value ((bytes.getD j 0 >>> (2 * t)) &&& 3) scale zp := by
      intro t ht
      apply getD_of_getElem?
      have c : ¬ ((4 * bytes.length % 4 = 1 ∨ 4 * bytes.length % 4 = 2) ∧
          4 * j + t = 4 * bytes.length - 4 * bytes.length % 4) := by omega
      have h1 : (4 * j + t) / 4 = j := by omega
      have h2 : (4 * j + t) % 4 = t := by omega
      rw [hget (4 * j + t), if_pos (by omega), read_u2, if_neg c, h1, h2]
    have g0 := hrd 0 (by omega)
    have g1 := hrd 1 (by omega)
    have g2 := hrd 2 (by omega)
    have g3 := hrd 3 (by omega)
    rw [Nat.add_zero] at g0
    rw [if_pos hj, packed_u2, if_pos (by omega), pack_u2, g0, g1, g2, g3,
      code_u2_dequant_value _ _ _ Nat.and_le_right hne,
      code_u2_dequant_value _ _ _ Nat.and_le_right hne,
      code_u2_dequant_value _ _ _ Nat.and_le_right hne,
      code_u2_dequant_value _ _ _ Nat.and_le_right hne,
      byte_u2_rebuild _ (getD_lt_of_forall bytes j hbytes),
      getD_eq_of_getElem?_getD bytes j 0 hj']
  · rw [if_neg hj, List.getElem?_eq_none (by omega), List.getElem?_eq_none (by omega)]

/-- C17. Re-encoding is the identity on full groups: in exact arithmetic, for either width,
every buffer `bytes` of arbitrary bytes, `len = group_size * |bytes|` (group size 2 for 4-bit,
4 for 2-bit), every `scale > 0` and every `zero_point`, dequantising `bytes` and quantising
the result with the same `len`, `scale` and `zero_point` into a buffer of `|bytes|` bytes
gives back `bytes`. -/
theorem requantize_full_groups (bytes : List ℕ) (fbuf : List ℚ) (obuf : List ℕ) (scale : ℚ)
    (zero_point : ℤ) (hscale : 0 < scale) (hbytes : ∀ p ∈ bytes, p < 256)
    (ho : obuf.length = bytes.length) :
    (2 * bytes.length ≤ fbuf.length →
      ∃ res, neurobit_dequant_uint4_to_float (some bytes) (some fbuf) (2 * bytes.length)
          scale zero_point = .ok res ∧
        neurobit_quant_float_to_uint4 (some res) (some obuf) (2 * bytes.length)
          scale zero_point = .ok bytes) ∧
    (4 * bytes.length ≤ fbuf.length →
      ∃ res, neurobit_dequant_uint2_to_float (some bytes) (some fbuf) (4 * bytes.length)
          scale zero_point = .ok res ∧
        neurobit_quant_float_to_uint2 (some res) (some obuf) (4 * bytes.length)
          scale zero_point = .ok bytes) :=
  ⟨fun hf => requantize_uint4 bytes fbuf obuf scale zero_point hscale hbytes hf ho,
    fun hf => requantize_uint2 bytes fbuf obuf scale zero_point hscale hbytes hf ho⟩

/-- Witness for C17: the packed image of the test, first three bytes (six 4-bit codes, twelve
2-bit codes), with the test's scale and zero point. -/
theorem requantize_full_groups_witness :
    (∃ res, neurobit_dequant_uint4_to_float (some [46, 214, 61])
        (some [0, 0, 0, 0, 0, 0, 0, 0, 0, 0, 0, 0]) (2 * 3) test_scale test_zp = .ok res ∧
      neurobit_quant_float_to_uint4 (some res) (some [0, 0, 0]) (2 * 3) test_scale test_zp
        = .ok [46, 214, 61]) ∧
    (∃ res, neurobit_dequant_uint2_to_float (some [46, 214, 61])
        (some [0, 0, 0, 0, 0, 0, 0, 0, 0, 0, 0, 0]) (4 * 3) test_scale test_zp = .ok res ∧
      neurobit_quant_float_to_uint2 (some res) (some [0, 0, 0]) (4 * 3) test_scale test_zp
        = .ok [46, 214, 61]) := by
  have h := requantize_full_groups [46, 214, 61] [0, 0, 0, 0, 0, 0, 0, 0, 0, 0, 0, 0]
    [0, 0, 0] test_scale test_zp (by norm_num [test_scale]) (by decide) (by simp)
  exact ⟨h.1 (by simp), h.2 (by simp)⟩


/-! ## Concatenation at a group boundary -/

theorem length_eq_of_getElem?_ite {α : Type} (l1 l2 : List α) (n : ℕ) (f : ℕ → α)
    (hn : n ≤ l2.length) (h : ∀ j : ℕ, l1[j]? = if j < n then some (f j) else l2[j]?) :
    l1.length = l2.length := by
  apply length_eq_of_isSome_eq
  intro j
  rw [h j]
  by_cases hj : j < n
  · rw [if_pos hj, List.getElem?_eq_getElem (by omega : j < l2.length)]
    rfl
  · rw [if_neg hj]

theorem packed_u4_append_left (a b : List ℚ) (lb : ℕ) (inv : ℚ) (zp : ℤ) (j : ℕ)
    (ha : a.length % 2 = 0) (hj : j < a.length / 2) :
    packed_u4 (a ++ b) (a.length + lb) inv zp j = packed_u4 a a.length inv zp j := by
  unfold packed_u4 pack_u4
  rw [if_pos (by omega), if_pos (by omega), List.getD_append _ _ _ _ (by omega),
    List.getD_append _ _ _ _ (by omega)]

theorem packed_u4_append_right (a b : List ℚ) (lb : ℕ) (inv : ℚ) (zp : ℤ) (j : ℕ)
    (ha : a.length % 2 = 0) (hj : a.length / 2 ≤ j) :
    packed_u4 (a ++ b) (a.length + lb) inv zp j = packed_u4 b lb inv zp (j - a.length / 2) := by
  have e0 : 2 * j - a.length = 2 * (j - a.length / 2) := by omega
  have e1 : 2 * j + 1 - a.length = 2 * (j - a.length / 2) + 1 := by omega
  unfold packed_u4 pack_u4
  rw [List.getD_append_right _ _ _ _ (by omega : a.length ≤ 2 * j),
    List.getD_append_right _ _ _ _ (by omega : a.length ≤ 2 * j + 1), e0, e1]
  by_cases h : 2 * j + 1 < a.length + lb
  · rw [if_pos h, if_pos (by omega)]
  · rw [if_neg h, if_neg (by omega)]

theorem packed_u2_append_left (a b : List ℚ) (lb : ℕ) (inv : ℚ) (zp : ℤ) (j : ℕ)
    (ha : a.length % 4 = 0) (hj : j < a.length / 4) :
    packed_u2 (a ++ b) (a.length + lb) inv zp j = packed_u2 a a.length inv zp j := by
  unfold packed_u2 pack_u2
  rw [if_pos (by omega), if_pos (by omega), List.getD_append _ _ _ _ (by omega),
    List.getD_append _ _ _ _ (by omega), List.getD_append _ _ _ _ (by omega),
    List.getD_append _ _ _ _ (by omega)]

theorem packed_u2_append_right (a b : List ℚ) (lb : ℕ) (inv : ℚ) (zp : ℤ) (j : ℕ)
    (ha : a.length % 4 = 0) (hj : a.length / 4 ≤ j) :
    packed_u2 (a ++ b) (a.length + lb) inv zp j = packed_u2 b lb inv zp (j - a.length / 4) := by
  have e0 : 4 * j - a.length = 4 * (j - a.length / 4) := by omega
  have e1 : 4 * j + 1 - a.length = 4 * (j - a.length / 4) + 1 := by omega
  have e2 : 4 * j + 2 - a.length = 4 * (j - a.length / 4) + 2 := by omega
  have e3 : 4 * j + 3 - a.length = 4 * (j - a.length / 4) + 3 := by omega
  have em : (a.length + lb) % 4 = lb % 4 := by omega
  unfold packed_u2 pack_u2
  rw [List.getD_append_right _ _ _ _ (by omega : a.length ≤ 4 * j),
    List.getD_append_right _ _ _ _ (by omega : a.length ≤ 4 * j + 1),
    List.getD_append_right _ _ _ _ (by omega : a.length ≤ 4 * j + 2),
    List.getD_append_right _ _ _ _ (by omega : a.length ≤ 4 * j + 3), e0, e1, e2, e3, em]
  by_cases h : 4 * j + 3 < a.length + lb
  · rw [if_pos h, if_pos (by omega)]
  · rw [if_neg h, if_neg (by omega)]

theorem quant_uint4_append (a b : List ℚ) (oa ob : List ℕ) (scale : ℚ) (zp : ℤ)
    (hscale : 0 < scale) (ha : a.length % 2 = 0) (hoa : oa.length = a.length / 2)
    (hob : ob.length = (b.length + 1) / 2) :
    ∃ ra rb,
      neurobit_quant_float_to_uint4 (some a) (some oa) a.length scale zp = .ok ra ∧
      neurobit_quant_float_to_uint4 (some b) (some ob) b.length scale zp = .ok rb ∧
      neurobit_quant_float_to_uint4 (some (a ++ b)) (some (oa ++ ob)) (a.length + b.length)
        scale zp = .ok (ra ++ rb) := by
  obtain ⟨ra, hra, ga⟩ := quant_uint4_run a oa a.length scale zp hscale (le_refl _)
    (by omega)
  obtain ⟨rb, hrb, gb⟩ := quant_uint4_run b ob b.length scale zp hscale (le_refl _)
    (by omega)
  obtain ⟨r, hr, g⟩ := quant_uint4_run (a ++ b) (oa ++ ob) (a.length + b.length) scale zp
    hscale (by rw [List.length_append]) (by rw [List.length_append]; omega)
  have la : ra.length = oa.length := length_eq_of_getElem?_ite _ _ _ _ (by omega) ga
  have lb : rb.length = ob.length := length_eq_of_getElem?_ite _ _ _ _ (by omega) gb
  refine ⟨ra, rb, hra, hrb, ?_⟩
  rw [hr]
  congr 1
  apply List.ext_getElem?
  intro j
  rw [g j, @List.getElem?_append ℕ ra rb j]
  by_cases h1 : j < ra.length
  · rw [if_pos h1, ga j, if_pos (by omega), if_pos (by omega),
      packed_u4_append_left a b _ _ _ j ha (by omega)]
  · rw [if_neg h1, gb (j - ra.length)]
    by_cases h2 : j < (a.length + b.length + 1) / 2
    · rw [if_pos h2, if_pos (by omega), packed_u4_append_right a b _ _ _ j ha (by omega), la,
        hoa]
    · rw [if_neg h2, if_neg (by omega),
        List.getElem?_eq_none (by rw [List.length_append]; omega),
        List.getElem?_eq_none (by omega)]

theorem quant_uint2_append (a b : List ℚ) (oa ob : List ℕ) (scale : ℚ) (zp : ℤ)
    (hscale : 0 < scale) (ha : a.length % 4 = 0) (hoa : oa.length = a.length / 4)
    (hob : ob.length = (b.length + 3) / 4) :
    ∃ ra rb,
      neurobit_quant_float_to_uint2 (some a) (some oa) a.length scale zp = .ok ra ∧
      neurobit_quant_float_to_uint2 (some b) (some ob) b.length scale zp = .ok rb ∧
      neurobit_quant_float_to_uint2 (some (a ++ b)) (some (oa ++ ob)) (a.length + b.length)
        scale zp = .ok (ra ++ rb) := by
  obtain ⟨ra, hra, ga⟩ := quant_uint2_run a oa a.length scale zp hscale (le_refl _)
    (by omega)
  obtain ⟨rb, hrb, gb⟩ := quant_uint2_run b ob b.length scale zp hscale (le_refl _)
    (by omega)
  obtain ⟨r, hr, g⟩ := quant_uint2_run (a ++ b) (oa ++ ob) (a.length + b.length) scale zp
    hscale (by rw [List.length_append]) (by rw [List.length_append]; omega)
  have la : ra.length = oa.length := length_eq_of_getElem?_ite _ _ _ _ (by omega) ga
  have lb : rb.length = ob.length := length_eq_of_getElem?_ite _ _ _ _ (by omega) gb
  refine ⟨ra, rb, hra, hrb, ?_⟩
  rw [hr]
  congr 1
  apply List.ext_getElem?
  intro j
  rw [g j, @List.getElem?_append ℕ ra rb j]
  by_cases h1 : j < ra.length
  · rw [if_pos h1, ga j, if_pos (by omega), if_pos (by omega),
      packed_u2_append_left a b _ _ _ j ha (by omega)]
  · rw [if_neg h1, gb (j - ra.length)]
    by_cases h2 : j < (a.length + b.length + 3) / 4
    · rw [if_pos h2, if_pos (by omega), packed_u2_append_right a b _ _ _ j ha (by omega), la,
        hoa]
    · rw [if_neg h2, if_neg (by omega),
        List.getElem?_eq_none (by rw [List.length_append]; omega),
        List.getElem?_eq_none (by omega)]

theorem read_u4_append_left (pa pb : List ℕ) (k : ℕ) (hk : k / 2 < pa.length) :
    read_u4 (pa ++ pb) k = read_u4 pa k := by
  unfold read_u4
  rw [List.getD_append _ _ _ _ hk]

theorem read_u4_append_right (pa pb : List ℕ) (la k : ℕ) (hla : la % 2 = 0)
    (hpa : pa.length = la / 2) (hk : la ≤ k) :
    read_u4 (pa ++ pb) k = read_u4 pb (k - la) := by
  have e1 : k / 2 - pa.length = (k - la) / 2 := by omega
  have e2 : (k - la) % 2 = k % 2 := by omega
  unfold read_u4
  rw [List.getD_append_right _ _ _ _ (by omega : pa.length ≤ k / 2), e1, e2]

theorem read_u2_append_left (pa pb : List ℕ) (la lb k : ℕ) (hla : la % 4 = 0)
    (hpa : pa.length = la / 4) (hk : k < la) :
    read_u2 (pa ++ pb) (la + lb) k = read_u2 pa la k := by
  have c1 : ¬ (((la + lb) % 4 = 1 ∨ (la + lb) % 4 = 2) ∧ k = la + lb - (la + lb) % 4) := by
    omega
  have c2 : ¬ ((la % 4 = 1 ∨ la % 4 = 2) ∧ k = la - la % 4) := by omega
  unfold read_u2
  rw [if_neg c1, if_neg c2, List.getD_append _ _ _ _ (by omega : k / 4 < pa.length)]

theorem read_u2_append_right (pa pb : List ℕ) (la lb k : ℕ) (hla : la % 4 = 0)
    (hpa : pa.length = la / 4) (hk : la ≤ k) :
    read_u2 (pa ++ pb) (la + lb) k = read_u2 pb lb (k - la) := by
  have e1 : k / 4 - pa.length = (k - la) / 4 := by omega
  have e2 : (k - la) % 4 = k % 4 := by omega
  have em : (la + lb) % 4 = lb % 4 := by omega
  unfold read_u2
  rw [List.getD_append_right _ _ _ _ (by omega : pa.length ≤ k / 4), e1, e2, em]
  by_cases c : (lb % 4 = 1 ∨ lb % 4 = 2) ∧ k = la + lb - lb % 4
  · rw [if_pos c, if_pos (by omega)]
  · rw [if_neg c, if_neg (by omega)]

theorem dequant_uint4_append (pa pb : List ℕ) (fa fb : List ℚ) (la lb : ℕ) (scale : ℚ)
    (zp : ℤ) (hscale : 0 < scale) (hla : la % 2 = 0) (hpa : pa.length = la / 2)
    (hpb : (lb + 1) / 2 ≤ pb.length) (hfa : fa.length = la) (hfb : fb.length = lb) :
    ∃ ra rb,
      neurobit_dequant_uint4_to_float (some pa) (some fa) la scale zp = .ok ra ∧
      neurobit_dequant_uint4_to_float (some pb) (some fb) lb scale zp = .ok rb ∧
      neurobit_dequant_uint4_to_float (some (pa ++ pb)) (some (fa ++ fb)) (la + lb) scale zp
        = .ok (ra ++ rb) := by
  obtain ⟨ra, hra, ga⟩ := dequant_uint4_run pa fa la scale zp hscale (by omega) (by omega)
  obtain ⟨rb, hrb, gb⟩ := dequant_uint4_run pb fb lb scale zp hscale hpb (by omega)
  obtain ⟨r, hr, g⟩ := dequant_uint4_run (pa ++ pb) (fa ++ fb) (la + lb) scale zp hscale
    (by rw [List.length_append]; omega) (by rw [List.length_append]; omega)
  have lra : ra.length = fa.length := length_eq_of_getElem?_ite _ _ _ _ (by omega) ga
  have lrb : rb.length = fb.length := length_eq_of_getElem?_ite _ _ _ _ (by omega) gb
  refine ⟨ra, rb, hra, hrb, ?_⟩
  rw [hr]
  congr 1
  apply List.ext_getElem?
  intro k
  rw [g k, @List.getElem?_append ℚ ra rb k]
  by_cases h1 : k < ra.length
  · rw [if_pos h1, ga k, if_pos (by omega), if_pos (by omega),
      read_u4_append_left pa pb k (by omega)]
  · rw [if_neg h1, gb (k - ra.length)]
    by_cases h2 : k < la + lb
    · rw [if_pos h2, if_pos (by omega), read_u4_append_right pa pb la k hla hpa (by omega),
        lra, hfa]
    · rw [if_neg h2, if_neg (by omega),
        List.getElem?_eq_none (by rw [List.length_append]; omega),
        List.getElem?_eq_none (by omega)]

theorem dequant_uint2_append (pa pb : List ℕ) (fa fb : List ℚ) (la lb : ℕ) (scale : ℚ)
    (zp : ℤ) (hscale : 0 < scale) (hla : la % 4 = 0) (hpa : pa.length = la / 4)
    (hpb : (lb + 3) / 4 ≤ pb.length) (hfa : fa.length = la) (hfb : fb.length = lb) :
    ∃ ra rb,
      neurobit_dequant_uint2_to_float (some pa) (some fa) la scale zp = .ok ra ∧
      neurobit_dequant_uint2_to_float (some pb) (some fb) lb scale zp = .ok rb ∧
      neurobit_dequant_uint2_to_float (some (pa ++ pb)) (some (fa ++ fb)) (la + lb) scale zp
        = .ok (ra ++ rb) := by
  obtain ⟨ra, hra, ga⟩ := dequant_uint2_run pa fa la scale zp hscale (by omega) (by omega)
  obtain ⟨rb, hrb, gb⟩ := dequant_uint2_run pb fb lb scale zp hscale hpb (by omega)
  obtain ⟨r, hr, g⟩ := dequant_uint2_run (pa ++ pb) (fa ++ fb) (la + lb) scale zp hscale
    (by rw [List.length_append]; omega) (by rw [List.length_append]; omega)
  have lra : ra.length = fa.length := length_eq_of_getElem?_ite _ _ _ _ (by omega) ga
  have lrb : rb.length = fb.length := length_eq_of_getElem?_ite _ _ _ _ (by omega) gb
  refine ⟨ra, rb, hra, hrb, ?_⟩
  rw [hr]
  congr 1
  apply List.ext_getElem?
  intro k
  rw [g k, @List.getElem?_append ℚ ra rb k]
  by_cases h1 : k < ra.length
  · rw [if_pos h1, ga k, if_pos (by omega), if_pos (by omega),
      read_u2_append_left pa pb la lb k hla hpa (by omega)]
  · rw [if_neg h1, gb (k - ra.length)]
    by_cases h2 : k < la + lb
    · rw [if_pos h2, if_pos (by omega),
        read_u2_append_right pa pb la lb k hla hpa (by omega), lra, hfa]
    · rw [if_neg h2, if_neg (by omega),
        List.getElem?_eq_none (by rw [List.length_append]; omega),
        List.getElem?_eq_none (by omega)]


theorem quant_uint4_byte_local (c d : List ℚ) (oc od : List ℕ) (len : ℕ) (scale : ℚ)
    (zp : ℤ) (j : ℕ) (hscale : 0 < scale) (hc : len ≤ c.length) (hd : len ≤ d.length)
    (hoc : (len + 1) / 2 ≤ oc.length) (hod : (len + 1) / 2 ≤ od.length)
    (hj : j < (len + 1) / 2) (hsame : ∀ t, t < 2 → c.getD (2 * j + t) 0 = d.getD (2 * j + t) 0) :
    ∃ rc rd,
      neurobit_quant_float_to_uint4 (some c) (some oc) len scale zp = .ok rc ∧
      neurobit_quant_float_to_uint4 (some d) (some od) len scale zp = .ok rd ∧
      rc[j]? = rd[j]? := by
  obtain ⟨rc, hrc, gc⟩ := quant_uint4_run c oc len scale zp hscale hc hoc
  obtain ⟨rd, hrd, gd⟩ := quant_uint4_run d od len scale zp hscale hd hod
  refine ⟨rc, rd, hrc, hrd, ?_⟩
  have s0 := hsame 0 (by omega)
  have s1 := hsame 1 (by omega)
  rw [Nat.add_zero] at s0
  rw [gc j, gd j, if_pos hj, if_pos hj]
  unfold packed_u4 pack_u4
  rw [s0, s1]

theorem quant_uint2_byte_local (c d : List ℚ) (oc od : List ℕ) (len : ℕ) (scale : ℚ)
    (zp : ℤ) (j : ℕ) (hscale : 0 < scale) (hc : len ≤ c.length) (hd : len ≤ d.length)
    (hoc : (len + 3) / 4 ≤ oc.length) (hod : (len + 3) / 4 ≤ od.length)
    (hj : j < (len + 3) / 4) (hsame : ∀ t, t < 4 → c.getD (4 * j + t) 0 = d.getD (4 * j + t) 0) :
    ∃ rc rd,
      neurobit_quant_float_to_uint2 (some c) (some oc) len scale zp = .ok rc ∧
      neurobit_quant_float_to_uint2 (some d) (some od) len scale zp = .ok rd ∧
      rc[j]? = rd[j]? := by
  obtain ⟨rc, hrc, gc⟩ := quant_uint2_run c oc len scale zp hscale hc hoc
  obtain ⟨rd, hrd, gd⟩ := quant_uint2_run d od len scale zp hscale hd hod
  refine ⟨rc, rd, hrc, hrd, ?_⟩
  have s0 := hsame 0 (by omega)
  have s1 := hsame 1 (by omega)
  have s2 := hsame 2 (by omega)
  have s3 := hsame 3 (by omega)
  rw [Nat.add_zero] at s0
  rw [gc j, gd j, if_pos hj, if_pos hj]
  unfold packed_u2 pack_u2
  rw [s0, s1, s2, s3]

/-- C18. Group-aligned concatenation: for either width, sample arrays `a`, `b` with `|a|` a
multiple of the group size, `scale > 0` and any `zero_point`,
`quantize(a ++ b) = quantize(a) ++ quantize(b)`; likewise for packed buffers `pa`, `pb` with
`len_a` a multiple of the group size and `pa` holding exactly `len_a / group_size` bytes,
`dequantize(pa ++ pb, len_a + len_b) = dequantize(pa, len_a) ++ dequantize(pb, len_b)`.
Each output byte of the quantisers depends only on the samples of its own group. -/
theorem concat_group_aligned (scale : ℚ) (zero_point : ℤ) (hscale : 0 < scale) :
    (∀ (a b : List ℚ) (oa ob : List ℕ), a.length % 2 = 0 → oa.length = a.length / 2 →
      ob.length = (b.length + 1) / 2 →
      ∃ ra rb,
        neurobit_quant_float_to_uint4 (some a) (some oa) a.length scale zero_point = .ok ra ∧
        neurobit_quant_float_to_uint4 (some b) (some ob) b.length scale zero_point = .ok rb ∧
        neurobit_quant_float_to_uint4 (some (a ++ b)) (some (oa ++ ob))
          (a.length + b.length) scale zero_point = .ok (ra ++ rb)) ∧
    (∀ (a b : List ℚ) (oa ob : List ℕ), a.length % 4 = 0 → oa.length = a.length / 4 →
      ob.length = (b.length + 3) / 4 →
      ∃ ra rb,
        neurobit_quant_float_to_uint2 (some a) (some oa) a.length scale zero_point = .ok ra ∧
        neurobit_quant_float_to_uint2 (some b) (some ob) b.length scale zero_point = .ok rb ∧
        neurobit_quant_float_to_uint2 (some (a ++ b)) (some (oa ++ ob))
          (a.length + b.length) scale zero_point = .ok (ra ++ rb)) ∧
    (∀ (pa pb : List ℕ) (fa fb : List ℚ) (la lb : ℕ), la % 2 = 0 → pa.length = la / 2 →
      (lb + 1) / 2 ≤ pb.length → fa.length = la → fb.length = lb →
      ∃ ra rb,
        neurobit_dequant_uint4_to_float (some pa) (some fa) la scale zero_point = .ok ra ∧
        neurobit_dequant_uint4_to_float (some pb) (some fb) lb scale zero_point = .ok rb ∧
        neurobit_dequant_uint4_to_float (some (pa ++ pb)) (some (fa ++ fb)) (la + lb)
          scale zero_point = .ok (ra ++ rb)) ∧
    (∀ (pa pb : List ℕ) (fa fb : List ℚ) (la lb : ℕ), la % 4 = 0 → pa.length = la / 4 →
      (lb + 3) / 4 ≤ pb.length → fa.length = la → fb.length = lb →
      ∃ ra rb,
        neurobit_dequant_uint2_to_float (some pa) (some fa) la scale zero_point = .ok ra ∧
        neurobit_dequant_uint2_to_float (some pb) (some fb) lb scale zero_point = .ok rb ∧
        neurobit_dequant_uint2_to_float (some (pa ++ pb)) (some (fa ++ fb)) (la + lb)
          scale zero_point = .ok (ra ++ rb)) ∧
    (∀ (c d : List ℚ) (oc od : List ℕ) (len j : ℕ), len ≤ c.length → len ≤ d.length →
      (len + 1) / 2 ≤ oc.length → (len + 1) / 2 ≤ od.length → j < (len + 1) / 2 →
      (∀ t, t < 2 → c.getD (2 * j + t) 0 = d.getD (2 * j + t) 0) →
      ∃ rc rd,
        neurobit_quant_float_to_uint4 (some c) (some oc) len scale zero_point = .ok rc ∧
        neurobit_quant_float_to_uint4 (some d) (some od) len scale zero_point = .ok rd ∧
        rc[j]? = rd[j]?) ∧
    (∀ (c d : List ℚ) (oc od : List ℕ) (len j : ℕ), len ≤ c.length → len ≤ d.length →
      (len + 3) / 4 ≤ oc.length → (len + 3) / 4 ≤ od.length → j < (len + 3) / 4 →
      (∀ t, t < 4 → c.getD (4 * j + t) 0 = d.getD (4 * j + t) 0) →
      ∃ rc rd,
        neurobit_quant_float_to_uint2 (some c) (some oc) len scale zero_point = .ok rc ∧
        neurobit_quant_float_to_uint2 (some d) (some od) len scale zero_point = .ok rd ∧
        rc[j]? = rd[j]?) := by
  refine ⟨?_, ?_, ?_, ?_, ?_, ?_⟩
  · intro a b oa ob ha hoa hob
    exact quant_uint4_append a b oa ob scale zero_point hscale ha hoa hob
  · intro a b oa ob ha hoa hob
    exact quant_uint2_append a b oa ob scale zero_point hscale ha hoa hob
  · intro pa pb fa fb la lb hla hpa hpb hfa hfb
    exact dequant_uint4_append pa pb fa fb la lb scale zero_point hscale hla hpa hpb hfa hfb
  · intro pa pb fa fb la lb hla hpa hpb hfa hfb
    exact dequant_uint2_append pa pb fa fb la lb scale zero_point hscale hla hpa hpb hfa hfb
  · intro c d oc od len j hc hd hoc hod hj hsame
    exact quant_uint4_byte_local c d oc od len scale zero_point j hscale hc hd hoc hod hj hsame
  · intro c d oc od len j hc hd hoc hod hj hsame
    exact quant_uint2_byte_local c d oc od len scale zero_point j hscale hc hd hoc hod hj hsame

/-- Witness for C18: the test's samples split after the fourth one, and its packed image split
after the second byte (4-bit) resp. the first byte (2-bit). -/
theorem concat_group_aligned_witness :
    (∃ ra rb,
      neurobit_quant_float_to_uint4 (some (test_input.take 4)) (some [0, 0]) 4 test_scale
        test_zp = .ok ra ∧
      neurobit_quant_float_to_uint4 (some (test_input.drop 4)) (some [0, 0]) 3 test_scale
        test_zp = .ok rb ∧
      neurobit_quant_float_to_uint4 (some (test_input.take 4 ++ test_input.drop 4))
        (some ([0, 0] ++ [0, 0])) (4 + 3) test_scale test_zp = .ok (ra ++ rb)) ∧
    (∃ ra rb,
      neurobit_quant_float_to_uint2 (some (test_input.take 4)) (some [0]) 4 test_scale
        test_zp = .ok ra ∧
      neurobit_quant_float_to_uint2 (some (test_input.drop 4)) (some [0]) 3 test_scale
        test_zp = .ok rb ∧
      neurobit_quant_float_to_uint2 (some (test_input.take 4 ++ test_input.drop 4))
        (some ([0] ++ [0])) (4 + 3) test_scale test_zp = .ok (ra ++ rb)) ∧
    (∃ ra rb,
      neurobit_dequant_uint4_to_float (some [46, 214]) (some [0, 0, 0, 0]) 4 test_scale
        test_zp = .ok ra ∧
      neurobit_dequant_uint4_to_float (some [61, 2]) (some [0, 0, 0]) 3 test_scale
        test_zp = .ok rb ∧
      neurobit_dequant_uint4_to_float (some ([46, 214] ++ [61, 2]))
        (some ([0, 0, 0, 0] ++ [0, 0, 0])) (4 + 3) test_scale test_zp = .ok (ra ++ rb)) ∧
    (∃ ra rb,
      neurobit_dequant_uint2_to_float (some [46]) (some [0, 0, 0, 0]) 4 test_scale
        test_zp = .ok ra ∧
      neurobit_dequant_uint2_to_float (some [214]) (some [0, 0]) 2 test_scale
        test_zp = .ok rb ∧
      neurobit_dequant_uint2_to_float (some ([46] ++ [214]))
        (some ([0, 0, 0, 0] ++ [0, 0])) (4 + 2) test_scale test_zp = .ok (ra ++ rb)) := by
  have h := concat_group_aligned test_scale test_zp (by norm_num [test_scale])
  refine ⟨?_, ?_, ?_, ?_⟩
  · exact h.1 (test_input.take 4) (test_input.drop 4) [0, 0] [0, 0] (by simp [test_input])
      (by simp [test_input]) (by simp [test_input])
  · exact h.2.1 (test_input.take 4) (test_input.drop 4) [0] [0] (by simp [test_input])
      (by simp [test_input]) (by simp [test_input])
  · exact h.2.2.1 [46, 214] [61, 2] [0, 0, 0, 0] [0, 0, 0] 4 3 (by decide) (by simp)
      (by simp) (by simp) (by simp)
  · exact h.2.2.2.1 [46] [214] [0, 0, 0, 0] [0, 0] 4 2 (by decide) (by simp) (by simp)
      (by simp) (by simp)


/-! ## Monotonicity -/

theorem roundf_mono {x y : ℚ} (h : x ≤ y) : roundf x ≤ roundf y := by
  unfold roundf
  by_cases hx : 0 ≤ x
  · have hy : 0 ≤ y := le_trans hx h
    rw [if_pos hx, if_pos hy]
    exact Int.floor_le_floor (by linarith)
  · rw [if_neg hx]
    by_cases hy : 0 ≤ y
    · rw [if_pos hy]
      have h1 : 0 ≤ ⌊-x + 1 / 2⌋ := Int.floor_nonneg.mpr (by linarith)
      have h2 : 0 ≤ ⌊y + 1 / 2⌋ := Int.floor_nonneg.mpr (by linarith)
      omega
    · rw [if_neg hy]
      have h1 : ⌊-y + 1 / 2⌋ ≤ ⌊-x + 1 / 2⌋ := Int.floor_le_floor (by linarith)
      omega

/-- C19. Quantization is monotone: in exact arithmetic, for either width, every `scale > 0`
and `zero_point`, if sample `in[k1] <= in[k2]` and neither `zero_point + round(in[k]/scale)`
overflows `int32_t`, then the code stored for `in[k1]` is `<=` the code stored for `in[k2]`;
`clamp(zero_point + round(x/scale), 0, max_code)` is non-decreasing in `x`. -/
theorem quant_monotone (inp : List ℚ) (out4 out2 : List ℕ) (len : ℕ) (scale : ℚ)
    (zero_point : ℤ) (k1 k2 : ℕ) (hscale : 0 < scale) (hin : len ≤ inp.length)
    (hout4 : (len + 1) / 2 ≤ out4.length) (hout2 : (len + 3) / 4 ≤ out2.length)
    (hk1 : k1 < len) (hk2 : k2 < len) (hle : inp.getD k1 0 ≤ inp.getD k2 0)
    (hov1 : isInt32 (zero_point + roundf (inp.getD k1 0 / scale)))
    (hov2 : isInt32 (zero_point + roundf (inp.getD k2 0 / scale))) :
    ∃ o4 o2,
      neurobit_quant_float_to_uint4 (some inp) (some out4) len scale zero_point = .ok o4 ∧
      neurobit_quant_float_to_uint2 (some inp) (some out2) len scale zero_point = .ok o2 ∧
      (o4.getD (k1 / 2) 0 >>> (4 * (k1 % 2))) &&& 15 ≤
        (o4.getD (k2 / 2) 0 >>> (4 * (k2 % 2))) &&& 15 ∧
      (o2.getD (k1 / 4) 0 >>> (2 * (k1 % 4))) &&& 3 ≤
        (o2.getD (k2 / 4) 0 >>> (2 * (k2 % 4))) &&& 3 ∧
      max 0 (min 15 (zero_point + roundf (inp.getD k1 0 / scale))) ≤
        max 0 (min 15 (zero_point + roundf (inp.getD k2 0 / scale))) ∧
      max 0 (min 3 (zero_point + roundf (inp.getD k1 0 / scale))) ≤
        max 0 (min 3 (zero_point + roundf (inp.getD k2 0 / scale))) := by
  obtain ⟨o4, hrun4, hf4⟩ := quant_uint4_fields inp out4 len scale zero_point hscale hin hout4
  obtain ⟨o2, hrun2, hf2⟩ := quant_uint2_fields inp out2 len scale zero_point hscale hin hout2
  have hr : roundf (inp.getD k1 0 / scale) ≤ roundf (inp.getD k2 0 / scale) :=
    roundf_mono (div_le_div_of_nonneg_right hle hscale.le)
  have a1 := code_u4_eq zero_point scale _ hov1
  have a2 := code_u4_eq zero_point scale _ hov2
  have b1 := code_u2_eq zero_point scale _ hov1
  have b2 := code_u2_eq zero_point scale _ hov2
  refine ⟨o4, o2, hrun4, hrun2, ?_, ?_, ?_, ?_⟩
  · rw [hf4 k1 hk1, hf4 k2 hk2]
    omega
  · rw [hf2 k1 hk1, hf2 k2 hk2]
    omega
  · omega
  · omega

/-- Witness for C19: samples 1 and 0 of the test vector (`-0.876... <= 0.851...`, codes 2
and 14). -/
theorem quant_monotone_witness :
    ∃ o4 o2,
      neurobit_quant_float_to_uint4 (some test_input) (some [0, 0, 0, 0]) 7 test_scale test_zp
        = .ok o4 ∧
      neurobit_quant_float_to_uint2 (some test_input) (some [0, 0]) 7 test_scale test_zp
        = .ok o2 ∧
      (o4.getD (1 / 2) 0 >>> (4 * (1 % 2))) &&& 15 ≤
        (o4.getD (0 / 2) 0 >>> (4 * (0 % 2))) &&& 15 ∧
      (o2.getD (1 / 4) 0 >>> (2 * (1 % 4))) &&& 3 ≤
        (o2.getD (0 / 4) 0 >>> (2 * (0 % 4))) &&& 3 := by
  obtain ⟨o4, o2, h4, h2, m4, m2, _, _⟩ := quant_monotone test_input [0, 0, 0, 0] [0, 0] 7
    test_scale test_zp 1 0 (by norm_num [test_scale]) (by simp [test_input]) (by simp)
    (by simp) (by decide) (by decide) (by norm_num [test_input])
    (test_input_no_overflow 1 (by decide)) (test_input_no_overflow 0 (by decide))
  exact ⟨o4, o2, h4, h2, m4, m2⟩

/-! ## Binary32 arithmetic against exact arithmetic -/

theorem f32_round_inv_41 : f32_round (1 / 41) = 3273603 / 134217728 := by
  have e : f32_exponent (1 / 41) = -6 := by
    norm_num [f32_exponent, Nat.log2]
  unfold f32_round
  rw [e]
  norm_num [round_half_even]

theorem f32_round_tie_41 :
    f32_round (41 / 2 * (3273603 / 134217728)) = 16777215 / 33554432 := by
  have q : (41 / 2 : ℚ) * (3273603 / 134217728) = 134217723 / 268435456 := by norm_num
  have e : f32_exponent (134217723 / 268435456) = -2 := by
    norm_num [f32_exponent, Nat.log2]
  unfold f32_round
  rw [q, e]
  norm_num [round_half_even]

theorem f32_round_neg_tie_41 :
    f32_round (-41 / 2 * (3273603 / 134217728)) = -(16777215 / 33554432) := by
  have q : (-41 / 2 : ℚ) * (3273603 / 134217728) = -134217723 / 268435456 := by norm_num
  have e : f32_exponent (-134217723 / 268435456) = -2 := by
    norm_num [f32_exponent, Nat.log2]
  unfold f32_round
  rw [q, e]
  norm_num [round_half_even]

theorem f32_round_inv_7 : f32_round (1 / 7) = 9586981 / 67108864 := by
  have e : f32_exponent (1 / 7) = -3 := by
    norm_num [f32_exponent, Nat.log2]
  unfold f32_round
  rw [e]
  norm_num [round_half_even]

theorem f32_round_large_7 :
    f32_round (15032384512 * (9586981 / 67108864)) = 2147483648 := by
  have q : (15032384512 : ℚ) * (9586981 / 67108864) = 140737485059803 / 65536 := by norm_num
  have e : f32_exponent (140737485059803 / 65536) = 30 := by
    norm_num [f32_exponent, Nat.log2]
  unfold f32_round
  rw [q, e]
  norm_num [round_half_even]

/-- In binary32 the encoders' expression can store a code other than
`clamp(zero_point + round(in/scale), 0, max_code)` although the rounded quotient and the sum
fit in `int32_t`.  For `in = 20.5`, `scale = 41`: `1.0f / 41` rounds down, the product is the
largest binary32 value below `1/2` and `roundf` gives `0`, so with `zero_point = 8` the 4-bit
code is `8` for `in = 20.5` and for `in = -20.5`, where the exact quotients `1/2` and `-1/2`
give `9` and `7`; the 2-bit code with `zero_point = 1` is `1`, not `2`.  For
`in = 15032384512`, `scale = 7`, `zero_point = 0` the product rounds up to `2^31`, which the
`int32_t` conversion does not hold, and the code is `0`, where the exact quotient rounds to
`2147483502` and the clamp gives `15`. -/
theorem code_f32_departs_from_exact :
    code_u4_f32 8 41 (41 / 2) = 8 ∧
      max 0 (min 15 (8 + roundf ((41 / 2 : ℚ) / 41))) = 9 ∧
      code_u4_f32 8 41 (-41 / 2) = 8 ∧
      max 0 (min 15 (8 + roundf ((-41 / 2 : ℚ) / 41))) = 7 ∧
      code_u2_f32 1 41 (41 / 2) = 1 ∧
      max 0 (min 3 (1 + roundf ((41 / 2 : ℚ) / 41))) = 2 ∧
      code_u4_f32 0 7 15032384512 = 0 ∧
      isInt32 (0 + roundf ((15032384512 : ℚ) / 7)) ∧
      max 0 (min 15 (0 + roundf ((15032384512 : ℚ) / 7))) = 15 := by
  refine ⟨?_, by norm_num [roundf], ?_, by norm_num [roundf], ?_, by norm_num [roundf], ?_,
    by norm_num [roundf, isInt32], by norm_num [roundf]⟩
  · rw [code_u4_f32, f32_round_inv_41, f32_round_tie_41]
    norm_num [roundf, wrap32, sat_u4, u8]
    all_goals rfl
  · rw [code_u4_f32, f32_round_inv_41, f32_round_neg_tie_41]
    norm_num [roundf, wrap32, sat_u4, u8]
    all_goals rfl
  · rw [code_u2_f32, f32_round_inv_41, f32_round_tie_41]
    norm_num [roundf, wrap32, sat_u2, u8]
  · rw [code_u4_f32, f32_round_inv_7, f32_round_large_7]
    norm_num [roundf, wrap32, sat_u4, u8]

end Neurobit
